import Mathlib

/-!
A shallow embedding, over `List Char`, of the text-normalization and
document-assembly core of `src/backend/utils.py` (whitespace normalization,
repeated header/footer removal, heuristic line reflow, and the pdf/docx
document builders), together with theorems settling the specification
claims about that code.
-/

set_option maxHeartbeats 1000000
set_option maxRecDepth 100000

/-- Text is modelled as a list of characters (Python `str`). -/
abbrev PyStr := List Char

/-- The regex class `[ \t]` used by the space-collapsing step of
`normalize_whitespace`. -/
def hspace (c : Char) : Bool := c = ' ' || c = '\t'

/-- The characters at which Python `str.splitlines` breaks a string. -/
def isLineBreak (c : Char) : Bool :=
  c = '\n' || c = '\x0b' || c = '\x0c' || c = '\r' ||
  c = '\x1c' || c = '\x1d' || c = '\x1e' || c = '\u0085' ||
  c = '\u2028' || c = '\u2029'

/-- Python whitespace: the set stripped by `str.strip` and matched by the
regex `\s` (with the default Unicode semantics of `str` patterns). -/
def pyWS (c : Char) : Bool :=
  hspace c || isLineBreak c || c = '\x1f' || c = '\u00a0' ||
  c = '\u1680' || (decide ('\u2000' ≤ c) && decide (c ≤ '\u200a')) ||
  c = '\u202f' || c = '\u205f' || c = '\u3000'

/-- Python `str.lstrip()`. -/
def lstrip (s : PyStr) : PyStr := s.dropWhile pyWS

/-- Python `str.rstrip()`. -/
def rstrip (s : PyStr) : PyStr := (s.reverse.dropWhile pyWS).reverse

/-- Python `str.strip()`. -/
def pyStrip (s : PyStr) : PyStr := rstrip (lstrip s)

/-- Worker for `re.sub(r"[ \t]{2,}", " ", text)`: `prev` records whether the
previous character was a space or tab, i.e. whether the current run has
already produced its output character. -/
def csAux (prev : Bool) : PyStr → PyStr
  | [] => []
  | c :: rest =>
    if hspace c then
      if prev then csAux true rest
      else
        match rest with
        | [] => [c]
        | d :: _ => if hspace d then ' ' :: csAux true rest else c :: csAux true rest
    else c :: csAux false rest

/-- `re.sub(r"[ \t]{2,}", " ", text)`: each maximal run of two or more
spaces/tabs becomes one space; an isolated space or tab is left alone. -/
def collapseSpaces (s : PyStr) : PyStr := csAux false s

/-- Worker for `re.sub(r"\n{3,}", "\n\n", text)`: `k` counts the newlines
already emitted for the current run, capped at 2. -/
def cnAux (k : Nat) : PyStr → PyStr
  | [] => []
  | c :: rest =>
    if c = '\n' then
      if k < 2 then '\n' :: cnAux (k + 1) rest else cnAux k rest
    else c :: cnAux 0 rest

/-- `re.sub(r"\n{3,}", "\n\n", text)`: every maximal run of three or more
newlines becomes exactly two; shorter runs are unchanged. -/
def collapseNewlines (s : PyStr) : PyStr := cnAux 0 s

/-- Worker for Python `str.splitlines`: `cur` holds the current line in
reverse.  A `"\r\n"` pair counts as a single break, and a break at the very
end of the string does not open a final empty line. -/
def psAux (cur : PyStr) : PyStr → List PyStr
  | [] => [cur.reverse]
  | c :: rest =>
    if isLineBreak c then
      if c = '\r' then
        match rest with
        | '\n' :: [] => [cur.reverse]
        | '\n' :: t :: ts => cur.reverse :: psAux [] (t :: ts)
        | [] => [cur.reverse]
        | r :: rs => cur.reverse :: psAux [] (r :: rs)
      else
        match rest with
        | [] => [cur.reverse]
        | r :: rs => cur.reverse :: psAux [] (r :: rs)
    else psAux (c :: cur) rest

/-- Python `str.splitlines()` (the empty string has no lines). -/
def pySplitlines : PyStr → List PyStr
  | [] => []
  | c :: rest => psAux [] (c :: rest)

/-- Python `"\n".join(lines)`. -/
def joinNL : List PyStr → PyStr
  | [] => []
  | [l] => l
  | l :: ls => l ++ '\n' :: joinNL ls

/-- `normalize_whitespace` from `src/backend/utils.py`: non-breaking spaces
become spaces, carriage returns are removed, runs of spaces/tabs collapse to
one space, runs of three or more newlines collapse to two, every line is
stripped, and the whole string is stripped.  Falsy (empty) input returns the
empty string. -/
def normalize_whitespace (text : PyStr) : PyStr :=
  if text = [] then []
  else
    let t1 := text.map fun c => if c = '\u00a0' then ' ' else c
    let t2 := t1.filter fun c => c != '\r'
    let t3 := collapseSpaces t2
    let t4 := collapseNewlines t3
    let t5 := joinNL ((pySplitlines t4).map pyStrip)
    pyStrip t5

/-- The class `[.!?]` of the sentence-splitting lookbehind in
`chunk_paragraph`. -/
def sentEnd (c : Char) : Bool := c = '.' || c = '!' || c = '?'

/-- Worker for `re.split(r"(?<=[.!?])\s+", paragraph)`: `skipping` is true
while a separator run is being consumed, `prev` is the previously consumed
character (the lookbehind), `acc` holds the current piece in reverse. -/
def ssAux (skipping : Bool) (prev : Option Char) (acc : PyStr) : PyStr → List PyStr
  | [] => [acc.reverse]
  | c :: rest =>
    if skipping && pyWS c then ssAux true (some c) acc rest
    else if !skipping && pyWS c && (match prev with | some p => sentEnd p | none => false) then
      acc.reverse :: ssAux true (some c) [] rest
    else ssAux false (some c) (c :: acc) rest

/-- `re.split(r"(?<=[.!?])\s+", paragraph)`. -/
def sentSplit (paragraph : PyStr) : List PyStr := ssAux false none [] paragraph

/-- The greedy sentence-packing loop of `chunk_paragraph`: `cur` is the chunk
being grown and `out` accumulates finished chunks in reverse. -/
def gpAux (maxc : Nat) (out : List PyStr) (cur : PyStr) : List PyStr → List PyStr
  | [] => (if cur ≠ [] then pyStrip cur :: out else out).reverse
  | s :: rest =>
    if cur.length + s.length + 1 ≤ maxc then
      gpAux maxc out (pyStrip (cur ++ ' ' :: s)) rest
    else if cur ≠ [] then gpAux maxc (pyStrip cur :: out) s rest
    else gpAux maxc out s rest

/-- The hard character-boundary split `[c[j:j+m] for j in range(0, len(c), m)]`
of `chunk_paragraph`, driven by a fuel argument that always dominates the
length of the input. -/
def slicesAux (m : Nat) : Nat → PyStr → List PyStr
  | _, [] => []
  | 0, _ :: _ => []
  | b + 1, c :: rest => ((c :: rest).take m) :: slicesAux m b ((c :: rest).drop m)

/-- `chunk_paragraph` as defined inside `build_pdf_from_text_or_markdown`
(the helper inside `build_docx_from_text` is character-for-character the
same): paragraphs at most `maxChars` long pass through unchanged; longer
ones are split at sentence boundaries, greedily packed under the limit, and
any packed chunk still over the limit is hard-split on character
boundaries. -/
def chunk_paragraph (paragraph : PyStr) (maxChars : Nat := 900) : List PyStr :=
  if paragraph.length ≤ maxChars then [paragraph]
  else
    let sentences := sentSplit paragraph
    let chunks := gpAux maxChars [] [] sentences
    (chunks.map fun c =>
      if c.length ≤ maxChars then [c] else slicesAux maxChars c.length c).flatten

/-- When the remaining text has no sentence-ending punctuation and the
lookbehind is not sentence-ending, the sentence splitter consumes everything
into the current piece. -/
theorem ssAux_no_sentEnd : ∀ (l : PyStr) (prev : Option Char) (acc : PyStr),
    (∀ c ∈ l, sentEnd c = false) →
    (∀ p, prev = some p → sentEnd p = false) →
    ssAux false prev acc l = [acc.reverse ++ l]
  | [], _, acc, _, _ => by simp [ssAux]
  | c :: rest, prev, acc, hl, hp => by
    have hc : sentEnd c = false := hl c (List.mem_cons_self _ _)
    have hrest : ∀ d ∈ rest, sentEnd d = false := fun d hd => hl d (List.mem_cons_of_mem _ hd)
    have step : ssAux false prev acc (c :: rest) = ssAux false (some c) (c :: acc) rest := by
      cases prev with
      | none => simp [ssAux]
      | some p => simp [ssAux, hp p rfl]
    rw [step, ssAux_no_sentEnd rest (some c) (c :: acc) hrest
      (by intro q hq; cases hq; exact hc)]
    simp

/-- A paragraph without sentence-ending punctuation is a single "sentence"
for the splitting regex. -/
theorem sentSplit_no_sentEnd (p : PyStr) (h : ∀ c ∈ p, sentEnd c = false) :
    sentSplit p = [p] := by
  unfold sentSplit
  rw [ssAux_no_sentEnd p none [] h (by intro _ h'; cases h')]
  simp

/-- Concatenating the hard character-boundary slices gives back the input. -/
theorem slicesAux_flatten : ∀ (b : Nat) (l : PyStr) (m : Nat), 1 ≤ m → l.length ≤ b →
    (slicesAux m b l).flatten = l
  | b, [], _, _, _ => by cases b <;> simp [slicesAux]
  | 0, c :: rest, _, _, h => by simp at h
  | b + 1, c :: rest, m, hm, h => by
    simp only [slicesAux, List.flatten_cons]
    rw [slicesAux_flatten b ((c :: rest).drop m) m hm
      (by simp only [List.length_drop]; simp at h ⊢; omega)]
    exact List.take_append_drop m (c :: rest)

/-- Every hard character-boundary slice is at most `m` characters long. -/
theorem slicesAux_length : ∀ (b : Nat) (l : PyStr) (m : Nat) (c : PyStr),
    c ∈ slicesAux m b l → c.length ≤ m
  | b, [], _, _, hc => by cases b <;> simp [slicesAux] at hc
  | 0, _ :: _, _, _, hc => by simp [slicesAux] at hc
  | b + 1, x :: rest, m, c, hc => by
    simp only [slicesAux, List.mem_cons] at hc
    rcases hc with h | h
    · subst h; exact List.length_take_le m (x :: rest)
    · exact slicesAux_length b ((x :: rest).drop m) m c h

/-- Claim C5, amended: for a paragraph longer than 900 characters with no
sentence-ending punctuation and no leading or trailing whitespace,
`chunk_paragraph` (default limit 900) returns contiguous chunks of length at
most 900 whose concatenation is exactly the original paragraph.  (Without
the no-edge-whitespace condition the final `strip` of the single packed
chunk loses characters; see the counterexample.) -/
theorem c5_chunk_paragraph (p : PyStr) (hlen : 900 < p.length)
    (hpunct : ∀ c ∈ p, sentEnd c = false) (hstrip : pyStrip p = p) :
    (∀ c ∈ chunk_paragraph p, c.length ≤ 900) ∧ (chunk_paragraph p).flatten = p := by
  have hnot : ¬ p.length ≤ 900 := by omega
  have hne : p ≠ [] := by intro h; rw [h] at hlen; simp at hlen
  have hgp : gpAux 900 [] [] [p] = [p] := by
    have h1 : ¬ (List.length ([] : PyStr) + p.length + 1 ≤ 900) := by
      simp only [List.length_nil]; omega
    simp only [gpAux, if_neg h1, ne_eq, not_true_eq_false, if_false]
    simp [hstrip, hne]
  have hcp : chunk_paragraph p = slicesAux 900 p.length p := by
    simp only [chunk_paragraph, if_neg hnot, sentSplit_no_sentEnd p hpunct, hgp,
      List.map_cons, List.map_nil, List.flatten_cons, List.flatten_nil, List.append_nil]
  rw [hcp]
  constructor
  · intro c hc
    exact slicesAux_length p.length p 900 c hc
  · exact slicesAux_flatten p.length p 900 (by omega) le_rfl

/-- Witness for `c5_chunk_paragraph` at a concrete 901-character paragraph. -/
theorem c5_chunk_paragraph_witness :
    (∀ c ∈ chunk_paragraph (List.replicate 901 'a'), c.length ≤ 900) ∧
    (chunk_paragraph (List.replicate 901 'a')).flatten = List.replicate 901 'a' :=
  c5_chunk_paragraph _ (by simp)
    (fun c hc => by rw [List.eq_of_mem_replicate hc]; rfl) (by decide)

/-- Claim C5 as stated is false: 901 spaces form a paragraph of length over
900 with no '.', '!' or '?', yet the single packed chunk is stripped, so the
concatenation of the returned chunks is empty rather than the original. -/
theorem c5_counterexample :
    900 < (List.replicate 901 ' ' : PyStr).length ∧
    (∀ c ∈ (List.replicate 901 ' ' : PyStr), sentEnd c = false) ∧
    (chunk_paragraph (List.replicate 901 ' ')).flatten ≠ List.replicate 901 ' ' := by
  refine ⟨by simp, fun c hc => by rw [List.eq_of_mem_replicate hc]; rfl, by decide⟩

/-- Worker for Python `s.split("|")`: `cur` holds the current piece in
reverse. -/
def spAux (cur : PyStr) : PyStr → List PyStr
  | [] => [cur.reverse]
  | c :: rest => if c = '|' then cur.reverse :: spAux [] rest else spAux (c :: cur) rest

/-- Python `s.split("|")`. -/
def splitOnPipe (s : PyStr) : List PyStr := spAux [] s

/-- `[c.strip() for c in tbl_line.split("|")[1:-1]]`: the cell strings of a
table line, dropping the artifacts of the outer pipe delimiters. -/
def cellsOf (line : PyStr) : List PyStr :=
  (((splitOnPipe line).drop 1).dropLast).map pyStrip

/-- The character class of the separator-row pattern `[\|\-\s:]`. -/
def sepChar (c : Char) : Bool := c = '|' || c = '-' || c = ':' || pyWS c

/-- `re.match(r"^[\|\-\s:]+$", s)`: a non-empty line made only of pipes,
dashes, colons and whitespace.  (`$` also matches before a final newline,
but a newline is itself in the class, so the two readings agree.) -/
def isSepLine (s : PyStr) : Bool := !s.isEmpty && s.all sepChar

/-- `is_table_start` from both builders: any line containing a pipe starts a
table; the separator look-ahead only short-circuits to the same answer. -/
def is_table_start (line next_line : PyStr) : Bool :=
  if !line.contains '|' then false
  else if isSepLine next_line then true
  else line.contains '|'

/-- `table_lines.pop(1)` guarded by the separator test: the second collected
table line is removed when it matches the pure-separator pattern. -/
def popSeparator (table_lines : List PyStr) : List PyStr :=
  match table_lines with
  | a :: b :: rest => if isSepLine b then a :: rest else table_lines
  | _ => table_lines

/-- The row-collection loop of `build_pdf_from_text_or_markdown`: each table
line is split into cells, and a row with no cells or only empty cells is
skipped.  (The `Paragraph()` wrapping of each surviving cell is
rendering-level and not part of the block structure.) -/
def pdfTableData (table_lines : List PyStr) : List (List PyStr) :=
  table_lines.foldr (fun tbl_line acc =>
    let cells := cellsOf tbl_line
    if cells.isEmpty || cells.all (fun c => c.isEmpty) then acc else cells :: acc) []

/-- The row-collection loop of `build_docx_from_text`: identical splitting;
a row is skipped when it has no non-empty cell (`if not any(cells)`). -/
def docxTableData (table_lines : List PyStr) : List (List PyStr) :=
  table_lines.foldr (fun tbl_line acc =>
    let cells := cellsOf tbl_line
    if !cells.any (fun c => !c.isEmpty) then acc else cells :: acc) []

/-- The class `[.!?:]` tested by the reflow and assembler merge loops. -/
def stopPunct (c : Char) : Bool := c = '.' || c = '!' || c = '?' || c = ':'

/-- `re.search(r"[.!?:]\s*$", s)`: the last non-whitespace character exists
and is sentence-ending punctuation. -/
def punctEnd (s : PyStr) : Bool :=
  match (s.reverse.dropWhile pyWS).head? with
  | some c => stopPunct c
  | none => false

/-- `re.match(r"^[a-z0-9]", s)`. -/
def startsLowerDigit (s : PyStr) : Bool :=
  match s.head? with
  | some c => (decide ('a' ≤ c) && decide (c ≤ 'z')) || (decide ('0' ≤ c) && decide (c ≤ '9'))
  | none => false

/-- `re.match(r"^[a-z]", s)`. -/
def startsLower (s : PyStr) : Bool :=
  match s.head? with
  | some c => decide ('a' ≤ c) && decide (c ≤ 'z')
  | none => false

/-- The inner line-merging loop of `build_pdf_from_text_or_markdown`: join
on a trailing hyphen, stop at trailing sentence punctuation, merge when the
next line starts with a lowercase letter or digit OR the buffer is shorter
than 40 characters.  Returns the finished run and the unconsumed lines. -/
def pdfMergeRun (cur : PyStr) : List PyStr → PyStr × List PyStr
  | [] => (cur, [])
  | nxt :: rest =>
    if cur.getLast? = some '-' then pdfMergeRun (cur.dropLast ++ nxt) rest
    else if punctEnd cur then (cur, nxt :: rest)
    else if startsLowerDigit nxt || cur.length < 40 then pdfMergeRun (cur ++ ' ' :: nxt) rest
    else (cur, nxt :: rest)

/-- The outer run loop of the pdf builder over a collected paragraph-line
buffer (fuel dominates the number of lines). -/
def pdfJoinedAux : Nat → List PyStr → List PyStr
  | 0, _ => []
  | _, [] => []
  | f + 1, l :: ls =>
    let s := pdfMergeRun l ls
    pyStrip s.1 :: pdfJoinedAux f s.2

/-- The merged runs (`joined`) that `build_pdf_from_text_or_markdown`
computes from a collected paragraph-line buffer. -/
def pdfJoined (para_lines : List PyStr) : List PyStr :=
  pdfJoinedAux para_lines.length para_lines

/-- The inner line-merging loop of `build_docx_from_text`
(character-for-character the code of the pdf builder's loop). -/
def docxMergeRun (cur : PyStr) : List PyStr → PyStr × List PyStr
  | [] => (cur, [])
  | nxt :: rest =>
    if cur.getLast? = some '-' then docxMergeRun (cur.dropLast ++ nxt) rest
    else if punctEnd cur then (cur, nxt :: rest)
    else if startsLowerDigit nxt || cur.length < 40 then docxMergeRun (cur ++ ' ' :: nxt) rest
    else (cur, nxt :: rest)

/-- The outer run loop of the docx builder. -/
def docxJoinedAux : Nat → List PyStr → List PyStr
  | 0, _ => []
  | _, [] => []
  | f + 1, l :: ls =>
    let s := docxMergeRun l ls
    pyStrip s.1 :: docxJoinedAux f s.2

/-- The merged runs (`joined`) that `build_docx_from_text` computes from a
collected paragraph-line buffer. -/
def docxJoined (para_lines : List PyStr) : List PyStr :=
  docxJoinedAux para_lines.length para_lines

/-- The inner while of `join_broken_lines`: stop at a blank next line; join
on a trailing hyphen; stop at trailing sentence punctuation; merge when the
next line starts with a lowercase letter or digit; merge when the run is
shorter than 40 characters AND the next line starts with a lowercase
letter.  The next line is read through `lstrip`, as in the source. -/
def jblMergeRun (run : PyStr) : List PyStr → PyStr × List PyStr
  | [] => (run, [])
  | raw :: rest =>
    let nxt := lstrip raw
    if nxt = [] then (run, raw :: rest)
    else if run.getLast? = some '-' then jblMergeRun (run.dropLast ++ nxt) rest
    else if punctEnd run then (run, raw :: rest)
    else if startsLowerDigit nxt then jblMergeRun (run ++ ' ' :: nxt) rest
    else if run.length < 40 && startsLower nxt then jblMergeRun (run ++ ' ' :: nxt) rest
    else (run, raw :: rest)

/-- The `out_lines` runs computed by `join_broken_lines`: a blank line
yields an empty run marking a paragraph boundary, any other line is read
through `rstrip` and extended by the inner merge loop. -/
def jblRunsAux : Nat → List PyStr → List PyStr
  | 0, _ => []
  | _, [] => []
  | f + 1, l :: ls =>
    let cur := rstrip l
    if cur = [] then [] :: jblRunsAux f ls
    else
      let s := jblMergeRun cur ls
      pyStrip s.1 :: jblRunsAux f s.2

/-- The `out_lines` of `join_broken_lines` on a line list. -/
def jblRuns (lines : List PyStr) : List PyStr := jblRunsAux lines.length lines

/-- Python `" ".join(ls)`. -/
def joinSpace (ls : List PyStr) : PyStr := List.intercalate [' '] ls

/-- The paragraph-grouping epilogue of `join_broken_lines`: maximal groups
of consecutive non-empty runs are joined with single spaces and stripped;
`curp` holds the current group in reverse. -/
def jpAux (paras : List PyStr) (curp : List PyStr) : List PyStr → List PyStr
  | [] => (if curp ≠ [] then pyStrip (joinSpace curp.reverse) :: paras else paras).reverse
  | ln :: rest =>
    if ln = [] then
      if curp ≠ [] then jpAux (pyStrip (joinSpace curp.reverse) :: paras) [] rest
      else jpAux paras [] rest
    else jpAux paras (ln :: curp) rest

/-- `join_broken_lines` from `src/backend/utils.py`: heuristic reflow of a
page's lines into paragraphs separated by blank lines. -/
def join_broken_lines (lines : List PyStr) : PyStr :=
  List.intercalate ['\n', '\n'] (jpAux [] [] (jblRuns lines))

/-- The inner while of `join_broken_lines` with the `lines[j]` subscript
modelled as a fallible lookup (`none` would be an IndexError); `j` is the
scanning index and fuel dominates `len(lines) - j`. -/
def jblInnerIdx : Nat → List PyStr → PyStr → Nat → Option (PyStr × Nat)
  | 0, lines, run, j => if j < lines.length then none else some (run, j)
  | f + 1, lines, run, j =>
    if j < lines.length then
      match lines.get? j with
      | none => none
      | some raw =>
        let nxt := lstrip raw
        if nxt = [] then some (run, j)
        else if run.getLast? = some '-' then jblInnerIdx f lines (run.dropLast ++ nxt) (j + 1)
        else if punctEnd run then some (run, j)
        else if startsLowerDigit nxt then jblInnerIdx f lines (run ++ ' ' :: nxt) (j + 1)
        else if run.length < 40 && startsLower nxt then
          jblInnerIdx f lines (run ++ ' ' :: nxt) (j + 1)
        else some (run, j)
    else some (run, j)

/-- The outer while of `join_broken_lines` with the `lines[i]` subscript
modelled as a fallible lookup, producing `out_lines`. -/
def jblOuterIdx : Nat → List PyStr → Nat → Option (List PyStr)
  | 0, lines, i => if i < lines.length then none else some []
  | f + 1, lines, i =>
    if i < lines.length then
      match lines.get? i with
      | none => none
      | some li =>
        let cur := rstrip li
        if cur = [] then (jblOuterIdx f lines (i + 1)).map (fun t => [] :: t)
        else
          match jblInnerIdx lines.length lines cur (i + 1) with
          | none => none
          | some rj => (jblOuterIdx f lines rj.2).map (fun t => pyStrip rj.1 :: t)
    else some []

/-- `join_broken_lines` with every `lines[i]`/`lines[j]` subscript modelled
as a fallible lookup: a `none` result would mean an uncaught IndexError. -/
def join_broken_lines_checked (lines : List PyStr) : Option PyStr :=
  (jblOuterIdx lines.length lines 0).map
    (fun out_lines => List.intercalate ['\n', '\n'] (jpAux [] [] out_lines))

/-- A render block of the Document Assembler: the table/paragraph structure
appended to the output document, before format-specific escaping, styling
and spacing. -/
inductive Block where
  | table (rows : List (List PyStr)) : Block
  | para (chunk : PyStr) : Block
deriving DecidableEq, Repr

/-- The main line-scanning loop of `build_pdf_from_text_or_markdown`,
reduced to the block structure appended to the story (`Spacer` entries, the
`</para>` scrub, html escaping and the newline substitution are
rendering-level).  The fuel dominates the number of remaining lines. -/
def pdfBlocksAux : Nat → List PyStr → List Block
  | 0, _ => []
  | _, [] => []
  | f + 1, l :: ls =>
    let line := pyStrip l
    let next_line := pyStrip (ls.head?.getD [])
    if is_table_start line next_line then
      let table_lines := (l :: ls).takeWhile (fun x => x.contains '|')
      let rest := (l :: ls).dropWhile (fun x => x.contains '|')
      let rows := pdfTableData (popSeparator table_lines)
      (if !rows.isEmpty && !(rows.headD []).isEmpty then [Block.table rows] else [])
        ++ pdfBlocksAux f rest
    else
      let para_lines :=
        ((l :: ls).takeWhile (fun x => !(pyStrip x).isEmpty && !x.contains '|')).map pyStrip
      let rest := (l :: ls).dropWhile (fun x => !(pyStrip x).isEmpty && !x.contains '|')
      if para_lines.isEmpty then pdfBlocksAux f ls
      else
        ((pdfJoined para_lines).map (fun para =>
          (chunk_paragraph para).map Block.para)).flatten ++ pdfBlocksAux f rest

/-- The block sequence `build_pdf_from_text_or_markdown` builds from the
lines of its input. -/
def pdfBlocks (lines : List PyStr) : List Block := pdfBlocksAux lines.length lines

/-- The main line-scanning loop of `build_docx_from_text`, reduced to the
block structure added to the document (the spacing paragraphs and html
escaping are rendering-level). -/
def docxBlocksAux : Nat → List PyStr → List Block
  | 0, _ => []
  | _, [] => []
  | f + 1, l :: ls =>
    let line := pyStrip l
    let next_line := pyStrip (ls.head?.getD [])
    if is_table_start line next_line then
      let table_lines := (l :: ls).takeWhile (fun x => x.contains '|')
      let rest := (l :: ls).dropWhile (fun x => x.contains '|')
      let rows := docxTableData (popSeparator table_lines)
      (if !rows.isEmpty then [Block.table rows] else []) ++ docxBlocksAux f rest
    else
      let para_lines :=
        ((l :: ls).takeWhile (fun x => !(pyStrip x).isEmpty && !x.contains '|')).map pyStrip
      let rest := (l :: ls).dropWhile (fun x => !(pyStrip x).isEmpty && !x.contains '|')
      if para_lines.isEmpty then docxBlocksAux f ls
      else
        ((docxJoined para_lines).map (fun para =>
          (chunk_paragraph para).map Block.para)).flatten ++ docxBlocksAux f rest

/-- The block sequence `build_docx_from_text` builds from the lines of its
input. -/
def docxBlocks (lines : List PyStr) : List Block := docxBlocksAux lines.length lines

/-- `build_docx_from_text` creates its table with `len(table_data)` rows and
`len(table_data[0])` columns and then writes cell `(r_idx, c_idx)` for every
cell of every row; python-docx locates a cell through the flat list of the
table's `nrows*ncols` cells at index `c_idx + r_idx*ncols`, so the write
loop raises IndexError exactly when some index reaches past that list. -/
def docxCellWriteOk (table_data : List (List PyStr)) : Bool :=
  let nrows := table_data.length
  let ncols := (table_data.headD []).length
  table_data.enum.all fun r =>
    (r.2.enum.all fun c => decide (c.1 + r.1 * ncols < nrows * ncols))

/-- `lstrip` only removes whitespace, so membership of a non-whitespace
character is unchanged. -/
theorem mem_lstrip_iff {c : Char} (l : PyStr) (hc : pyWS c = false) :
    c ∈ lstrip l ↔ c ∈ l := by
  constructor
  · exact fun h => (List.dropWhile_suffix pyWS).subset h
  · intro h
    rcases List.mem_append.1 ((List.takeWhile_append_dropWhile pyWS l) ▸ h) with h' | h'
    · exact absurd (List.mem_takeWhile_imp h') (by simp [hc])
    · exact h'

/-- `rstrip` only removes whitespace, so membership of a non-whitespace
character is unchanged. -/
theorem mem_rstrip_iff {c : Char} (l : PyStr) (hc : pyWS c = false) :
    c ∈ rstrip l ↔ c ∈ l := by
  unfold rstrip
  rw [List.mem_reverse]
  rw [show (c ∈ l ↔ c ∈ l.reverse) from (List.mem_reverse).symm]
  exact mem_lstrip_iff l.reverse hc

/-- `strip` only removes whitespace, so membership of a non-whitespace
character is unchanged. -/
theorem mem_pyStrip_iff {c : Char} (l : PyStr) (hc : pyWS c = false) :
    c ∈ pyStrip l ↔ c ∈ l := by
  unfold pyStrip
  rw [mem_rstrip_iff _ hc, mem_lstrip_iff _ hc]

/-- A line containing a pipe always starts a table: the separator look-ahead
cannot change the answer. -/
theorem is_table_start_of_contains {line : PyStr} (next_line : PyStr)
    (h : line.contains '|' = true) : is_table_start line next_line = true := by
  unfold is_table_start
  rw [h]
  by_cases hs : isSepLine next_line = true <;> simp [hs]

/-- The pdf builder's skip test for a row (`not cells or all empty`) is
exactly the complement of having a non-empty cell. -/
theorem emptyRowTest (cs : List PyStr) :
    (cs.isEmpty || cs.all fun c => c.isEmpty) = !(cs.any fun c => !c.isEmpty) := by
  cases cs with
  | nil => rfl
  | cons x xs => simp [List.all_eq_not_any_not]

/-- Both row-collection loops keep exactly the cell rows that have at least
one non-empty cell: a row whose cells are all empty is dropped. -/
theorem tableData_eq_filter (table_lines : List PyStr) :
    pdfTableData table_lines
      = (table_lines.map cellsOf).filter (fun cs => cs.any fun c => !c.isEmpty) ∧
    docxTableData table_lines
      = (table_lines.map cellsOf).filter (fun cs => cs.any fun c => !c.isEmpty) := by
  induction table_lines with
  | nil => exact ⟨rfl, rfl⟩
  | cons l ls ih =>
    unfold pdfTableData docxTableData at ih ⊢
    simp only [List.foldr_cons, List.map_cons, List.filter_cons, ih.1, ih.2, emptyRowTest]
    constructor
    · cases h : (cellsOf l).any fun c => !c.isEmpty <;> simp [h]
    · cases h : (cellsOf l).any fun c => !c.isEmpty <;> simp [h]

/-- Every table block emitted by the pdf scanning loop consists of rows with
at least one non-empty cell. -/
theorem pdfBlocksAux_table_rows :
    ∀ (f : Nat) (lines : List PyStr) (rows : List (List PyStr)),
    Block.table rows ∈ pdfBlocksAux f lines →
    ∀ row ∈ rows, (row.any fun c => !c.isEmpty) = true
  | 0, _, _, h => by simp [pdfBlocksAux] at h
  | _ + 1, [], _, h => by simp [pdfBlocksAux] at h
  | f + 1, l :: ls, rows, h => by
    simp only [pdfBlocksAux] at h
    split at h
    · rcases List.mem_append.1 h with h' | h'
      · split at h'
        · simp only [List.mem_singleton, Block.table.injEq] at h'
          subst h'
          intro row hrow
          rw [(tableData_eq_filter _).1] at hrow
          exact (List.mem_filter.1 hrow).2
        · simp at h'
      · exact pdfBlocksAux_table_rows f _ rows h'
    · split at h
      · exact pdfBlocksAux_table_rows f ls rows h
      · rcases List.mem_append.1 h with h' | h'
        · rcases List.mem_flatten.1 h' with ⟨bl, hbl, hmem⟩
          rcases List.mem_map.1 hbl with ⟨para, _, hpara⟩
          subst hpara
          rcases List.mem_map.1 hmem with ⟨c, _, hc⟩
          cases hc
        · exact pdfBlocksAux_table_rows f _ rows h'

/-- Every table block emitted by the docx scanning loop consists of rows
with at least one non-empty cell. -/
theorem docxBlocksAux_table_rows :
    ∀ (f : Nat) (lines : List PyStr) (rows : List (List PyStr)),
    Block.table rows ∈ docxBlocksAux f lines →
    ∀ row ∈ rows, (row.any fun c => !c.isEmpty) = true
  | 0, _, _, h => by simp [docxBlocksAux] at h
  | _ + 1, [], _, h => by simp [docxBlocksAux] at h
  | f + 1, l :: ls, rows, h => by
    simp only [docxBlocksAux] at h
    split at h
    · rcases List.mem_append.1 h with h' | h'
      · split at h'
        · simp only [List.mem_singleton, Block.table.injEq] at h'
          subst h'
          intro row hrow
          rw [(tableData_eq_filter _).2] at hrow
          exact (List.mem_filter.1 hrow).2
        · simp at h'
      · exact docxBlocksAux_table_rows f _ rows h'
    · split at h
      · exact docxBlocksAux_table_rows f ls rows h
      · rcases List.mem_append.1 h with h' | h'
        · rcases List.mem_flatten.1 h' with ⟨bl, hbl, hmem⟩
          rcases List.mem_map.1 hbl with ⟨para, _, hpara⟩
          subst hpara
          rcases List.mem_map.1 hmem with ⟨c, _, hc⟩
          cases hc
        · exact docxBlocksAux_table_rows f _ rows h'

/-- Claim C7: in both builders a table line whose cells are all empty is
excluded from the constructed rows -- the kept rows are exactly the cell
rows with at least one non-empty cell -- and consequently every row of
every constructed table block contains a non-blank cell. -/
theorem c7_empty_rows_excluded :
    (∀ table_lines : List PyStr,
      pdfTableData table_lines
        = (table_lines.map cellsOf).filter (fun cs => cs.any fun c => !c.isEmpty) ∧
      docxTableData table_lines
        = (table_lines.map cellsOf).filter (fun cs => cs.any fun c => !c.isEmpty)) ∧
    (∀ (lines : List PyStr) (rows : List (List PyStr)),
      Block.table rows ∈ pdfBlocks lines ∨ Block.table rows ∈ docxBlocks lines →
      ∀ row ∈ rows, ∃ c ∈ row, c ≠ []) := by
  refine ⟨tableData_eq_filter, fun lines rows h row hrow => ?_⟩
  have hany : (row.any fun c => !c.isEmpty) = true := by
    rcases h with h | h
    · exact pdfBlocksAux_table_rows _ _ rows h row hrow
    · exact docxBlocksAux_table_rows _ _ rows h row hrow
  rcases List.any_eq_true.1 hany with ⟨c, hc, hne⟩
  exact ⟨c, hc, by simpa using hne⟩

/-- Witness for `c7_empty_rows_excluded` on a concrete two-row table whose
second row has only blank cells. -/
theorem c7_empty_rows_excluded_witness :
    (pdfTableData ["|a|b|".toList, "| | |".toList]
      = ([["|a|b|".toList, "| | |".toList].map cellsOf].flatten).filter
          (fun cs => cs.any fun c => !c.isEmpty)) ∧
    (∀ row ∈ [["a".toList, "b".toList]], ∃ c ∈ row, c ≠ []) := by
  constructor
  · have := (c7_empty_rows_excluded.1 ["|a|b|".toList, "| | |".toList]).1
    simpa using this
  · exact c7_empty_rows_excluded.2 ["|a|b|".toList]
      [["a".toList, "b".toList]] (Or.inl (by decide))

/-- Claim C2 is a code bug: on the ragged two-row table `|a|b|` over
`|c|d|e|` both builders keep the second row with three cells while the
first row has two -- no truncation or padding to the first row's column
count happens anywhere -- and the docx cell-write loop then addresses cell
(1,2), flat index 4 of the 2x2 = 4 cells python-docx allocated, which is an
IndexError instead of a built document. -/
theorem c2_ragged_rows_unreconciled :
    pdfBlocks ["|a|b|".toList, "|c|d|e|".toList]
      = [Block.table [["a".toList, "b".toList],
                      ["c".toList, "d".toList, "e".toList]]] ∧
    docxBlocks ["|a|b|".toList, "|c|d|e|".toList]
      = [Block.table [["a".toList, "b".toList],
                      ["c".toList, "d".toList, "e".toList]]] ∧
    ¬ (∀ row ∈ docxTableData ["|a|b|".toList, "|c|d|e|".toList], row.length = 2) ∧
    docxCellWriteOk (docxTableData ["|a|b|".toList, "|c|d|e|".toList]) = false := by
  refine ⟨by decide, by decide, by decide, by decide⟩

/-- A pipe-free chunk is consumed whole by the pipe splitter. -/
theorem spAux_no_pipe : ∀ (x cur : PyStr), (∀ c ∈ x, c ≠ '|') →
    spAux cur x = [cur.reverse ++ x]
  | [], cur, _ => by simp [spAux]
  | c :: rest, cur, h => by
    have hc : c ≠ '|' := h c (List.mem_cons_self _ _)
    simp only [spAux, if_neg hc]
    rw [spAux_no_pipe rest (c :: cur) (fun d hd => h d (List.mem_cons_of_mem _ hd))]
    simp

/-- The pipe splitter cuts at the first pipe after a pipe-free chunk. -/
theorem spAux_split : ∀ (x cur rest : PyStr), (∀ c ∈ x, c ≠ '|') →
    spAux cur (x ++ '|' :: rest) = (cur.reverse ++ x) :: spAux [] rest
  | [], cur, rest, _ => by simp [spAux]
  | c :: x', cur, rest, h => by
    have hc : c ≠ '|' := h c (List.mem_cons_self _ _)
    rw [show ((c :: x') ++ '|' :: rest : PyStr) = c :: (x' ++ '|' :: rest) by rfl]
    rw [show spAux cur (c :: (x' ++ '|' :: rest)) = spAux (c :: cur) (x' ++ '|' :: rest) by
      simp [spAux, hc]]
    rw [spAux_split x' (c :: cur) rest (fun d hd => h d (List.mem_cons_of_mem _ hd))]
    simp

/-- A two-cell markdown table row `|x|y|`. -/
def mkRow (x y : PyStr) : PyStr := '|' :: (x ++ '|' :: (y ++ ['|']))

/-- The cells of `|x|y|` are the two stripped cell texts: the artifacts of
the outer delimiters are dropped by the `[1:-1]` slice. -/
theorem cellsOf_mkRow (x y : PyStr) (hx : ∀ c ∈ x, c ≠ '|') (hy : ∀ c ∈ y, c ≠ '|') :
    cellsOf (mkRow x y) = [pyStrip x, pyStrip y] := by
  have hsplit : splitOnPipe (mkRow x y) = [[], x, y, []] := by
    unfold splitOnPipe mkRow
    rw [show spAux [] ('|' :: (x ++ '|' :: (y ++ ['|'])))
          = [].reverse :: spAux [] (x ++ '|' :: (y ++ ['|'])) by simp [spAux]]
    rw [spAux_split x [] (y ++ ['|']) hx]
    rw [show (y ++ ['|'] : PyStr) = y ++ '|' :: [] by simp]
    rw [spAux_split y [] [] hy]
    simp [spAux]
  unfold cellsOf
  rw [hsplit]
  rfl

/-- A constructed table row contains its pipes. -/
theorem mkRow_contains (x y : PyStr) : (mkRow x y).contains '|' = true :=
  List.elem_iff.2 (List.mem_cons_self _ _)

/-- Claim C6: on input lines made of a two-column header row, a pure
separator row containing a pipe, and two two-column data rows with
non-blank cells, both builders produce exactly one block: a table whose
rows are the header row followed by the two data rows (separator
discarded), so the two output formats see the same block sequence. -/
theorem c6_table_round_trip (h1 h2 a1 a2 b1 b2 sep : PyStr)
    (hp1 : ∀ c ∈ h1, c ≠ '|') (hp2 : ∀ c ∈ h2, c ≠ '|')
    (hp3 : ∀ c ∈ a1, c ≠ '|') (hp4 : ∀ c ∈ a2, c ≠ '|')
    (hp5 : ∀ c ∈ b1, c ≠ '|') (hp6 : ∀ c ∈ b2, c ≠ '|')
    (hc1 : pyStrip h1 ≠ []) (hc2 : pyStrip h2 ≠ [])
    (hc3 : pyStrip a1 ≠ []) (hc4 : pyStrip a2 ≠ [])
    (hc5 : pyStrip b1 ≠ []) (hc6 : pyStrip b2 ≠ [])
    (hsep : isSepLine sep = true) (hsepPipe : '|' ∈ sep) :
    pdfBlocks [mkRow h1 h2, sep, mkRow a1 a2, mkRow b1 b2]
      = [Block.table [[pyStrip h1, pyStrip h2], [pyStrip a1, pyStrip a2],
          [pyStrip b1, pyStrip b2]]] ∧
    docxBlocks [mkRow h1 h2, sep, mkRow a1 a2, mkRow b1 b2]
      = [Block.table [[pyStrip h1, pyStrip h2], [pyStrip a1, pyStrip a2],
          [pyStrip b1, pyStrip b2]]] := by
  have hsc : sep.contains '|' = true := List.elem_iff.2 hsepPipe
  have hts : is_table_start (pyStrip (mkRow h1 h2)) (pyStrip sep) = true := by
    apply is_table_start_of_contains
    exact List.elem_iff.2 ((mem_pyStrip_iff _ (by decide)).2 (List.mem_cons_self _ _))
  have hm1 : '|' ∈ mkRow h1 h2 := List.mem_cons_self _ _
  have hm2 : '|' ∈ mkRow a1 a2 := List.mem_cons_self _ _
  have hm3 : '|' ∈ mkRow b1 b2 := List.mem_cons_self _ _
  have htake : List.takeWhile (fun x => x.contains '|')
      [mkRow h1 h2, sep, mkRow a1 a2, mkRow b1 b2]
      = [mkRow h1 h2, sep, mkRow a1 a2, mkRow b1 b2] := by
    simp [List.takeWhile_cons, hm1, hm2, hm3, hsepPipe]
  have hdrop : List.dropWhile (fun x => x.contains '|')
      [mkRow h1 h2, sep, mkRow a1 a2, mkRow b1 b2] = [] := by
    simp [List.dropWhile_cons, hm1, hm2, hm3, hsepPipe]
  have hpop : popSeparator [mkRow h1 h2, sep, mkRow a1 a2, mkRow b1 b2]
      = [mkRow h1 h2, mkRow a1 a2, mkRow b1 b2] := by
    simp [popSeparator, hsep]
  have hfilter : (([mkRow h1 h2, mkRow a1 a2, mkRow b1 b2].map cellsOf).filter
        (fun cs => cs.any fun c => !c.isEmpty))
      = [[pyStrip h1, pyStrip h2], [pyStrip a1, pyStrip a2], [pyStrip b1, pyStrip b2]] := by
    rw [List.map_cons, List.map_cons, List.map_cons, List.map_nil,
      cellsOf_mkRow h1 h2 hp1 hp2, cellsOf_mkRow a1 a2 hp3 hp4, cellsOf_mkRow b1 b2 hp5 hp6]
    simp [List.filter_cons, List.isEmpty_eq_false.2 hc1, List.isEmpty_eq_false.2 hc3,
      List.isEmpty_eq_false.2 hc5]
  have hrows_pdf : pdfTableData [mkRow h1 h2, mkRow a1 a2, mkRow b1 b2]
      = [[pyStrip h1, pyStrip h2], [pyStrip a1, pyStrip a2], [pyStrip b1, pyStrip b2]] := by
    rw [(tableData_eq_filter _).1, hfilter]
  have hrows_docx : docxTableData [mkRow h1 h2, mkRow a1 a2, mkRow b1 b2]
      = [[pyStrip h1, pyStrip h2], [pyStrip a1, pyStrip a2], [pyStrip b1, pyStrip b2]] := by
    rw [(tableData_eq_filter _).2, hfilter]
  constructor
  · show pdfBlocksAux 4 [mkRow h1 h2, sep, mkRow a1 a2, mkRow b1 b2] = _
    simp only [pdfBlocksAux, List.head?_cons, Option.getD_some, hts, if_true, htake, hdrop,
      hpop, hrows_pdf]
    simp [pdfBlocksAux]
  · show docxBlocksAux 4 [mkRow h1 h2, sep, mkRow a1 a2, mkRow b1 b2] = _
    simp only [docxBlocksAux, List.head?_cons, Option.getD_some, hts, if_true, htake, hdrop,
      hpop, hrows_docx]
    simp [docxBlocksAux]

/-- A string equal to its own strip has nothing to drop on the left. -/
theorem lstrip_eq_self_of_pyStrip {l : PyStr} (h : pyStrip l = l) : lstrip l = l := by
  have hsuf : lstrip l <:+ l := List.dropWhile_suffix pyWS
  have h1 : (pyStrip l).length ≤ (lstrip l).length := by
    unfold pyStrip rstrip
    simpa using ((List.dropWhile_suffix pyWS).sublist.length_le :
      ((lstrip l).reverse.dropWhile pyWS).length ≤ (lstrip l).reverse.length)
  have h2 : (lstrip l).length ≤ l.length := hsuf.sublist.length_le
  exact hsuf.eq_of_length (by rw [h] at h1; omega)

/-- A string equal to its own strip has nothing to drop on the right. -/
theorem rstrip_eq_self_of_pyStrip {l : PyStr} (h : pyStrip l = l) : rstrip l = l := by
  have h' := lstrip_eq_self_of_pyStrip h
  unfold pyStrip at h
  rw [h'] at h
  exact h

/-- The unconsumed lines of the reflow inner loop form a suffix of its
input. -/
theorem jblMergeRun_suffix : ∀ (ls : List PyStr) (run : PyStr),
    (jblMergeRun run ls).2 <:+ ls
  | [], run => by simp [jblMergeRun]
  | raw :: rest, run => by
    simp only [jblMergeRun]
    split
    · exact List.suffix_refl _
    · split
      · exact ((jblMergeRun_suffix rest _).trans (List.suffix_cons _ _))
      · split
        · exact List.suffix_refl _
        · split
          · exact ((jblMergeRun_suffix rest _).trans (List.suffix_cons _ _))
          · split
            · exact ((jblMergeRun_suffix rest _).trans (List.suffix_cons _ _))
            · exact List.suffix_refl _

/-- The two assembler inner loops are the same function. -/
theorem pdfMergeRun_eq_docxMergeRun : ∀ (ls : List PyStr) (cur : PyStr),
    pdfMergeRun cur ls = docxMergeRun cur ls
  | [], _ => rfl
  | nxt :: rest, cur => by
    unfold pdfMergeRun docxMergeRun
    split
    · exact pdfMergeRun_eq_docxMergeRun rest _
    · split
      · rfl
      · split
        · exact pdfMergeRun_eq_docxMergeRun rest _
        · rfl

/-- The two assembler outer loops are the same function. -/
theorem pdfJoinedAux_eq_docxJoinedAux : ∀ (f : Nat) (ls : List PyStr),
    pdfJoinedAux f ls = docxJoinedAux f ls
  | 0, ls => by cases ls <;> rfl
  | _ + 1, [] => rfl
  | f + 1, l :: ls => by
    simp only [pdfJoinedAux, docxJoinedAux, pdfMergeRun_eq_docxMergeRun ls l]
    rw [pdfJoinedAux_eq_docxJoinedAux f (docxMergeRun l ls).2]

/-- On stripped, non-blank lines of length at least 40, the reflow inner
loop and the assembler inner loop make identical decisions (the assembler's
unconditional short-line disjunct can no longer fire), and the run stays at
least 40 characters long. -/
theorem jblMergeRun_eq_pdfMergeRun : ∀ (ls : List PyStr) (run : PyStr),
    (∀ l ∈ ls, pyStrip l = l ∧ l ≠ [] ∧ 40 ≤ l.length) → 40 ≤ run.length →
    jblMergeRun run ls = pdfMergeRun run ls ∧ 40 ≤ (jblMergeRun run ls).1.length
  | [], run, _, hrun => ⟨rfl, hrun⟩
  | raw :: rest, run, h, hrun => by
    obtain ⟨hstrip, hne, hlen⟩ := h raw (List.mem_cons_self _ _)
    have hrest : ∀ l ∈ rest, pyStrip l = l ∧ l ≠ [] ∧ 40 ≤ l.length :=
      fun l hl => h l (List.mem_cons_of_mem _ hl)
    have hlst : lstrip raw = raw := lstrip_eq_self_of_pyStrip hstrip
    have hnotlt : ¬ run.length < 40 := by omega
    simp only [jblMergeRun, pdfMergeRun, hlst, if_neg hne]
    by_cases hhyp : run.getLast? = some '-'
    · simp only [if_pos hhyp]
      refine jblMergeRun_eq_pdfMergeRun rest (run.dropLast ++ raw) hrest ?_
      simp only [List.length_append]
      omega
    · simp only [if_neg hhyp]
      by_cases hpunct : punctEnd run = true
      · simp [hpunct, hrun]
      · simp only [Bool.not_eq_true] at hpunct
        simp only [hpunct, Bool.false_eq_true, if_false]
        by_cases hsld : startsLowerDigit raw = true
        · simp only [hsld, Bool.true_or, if_true]
          refine jblMergeRun_eq_pdfMergeRun rest (run ++ ' ' :: raw) hrest ?_
          simp only [List.length_append]
          omega
        · simp only [Bool.not_eq_true] at hsld
          have : (decide (run.length < 40) && startsLower raw) = false := by
            simp [hnotlt]
          simp [hsld, this, hnotlt, hrun]

/-- On stripped, non-blank lines of length at least 40, the reflow outer
loop computes the same runs as the assembler outer loop. -/
theorem jblRunsAux_eq_pdfJoinedAux : ∀ (f : Nat) (ls : List PyStr),
    (∀ l ∈ ls, pyStrip l = l ∧ l ≠ [] ∧ 40 ≤ l.length) →
    jblRunsAux f ls = pdfJoinedAux f ls
  | 0, ls, _ => by cases ls <;> rfl
  | _ + 1, [], _ => rfl
  | f + 1, l :: ls, h => by
    obtain ⟨hstrip, hne, hlen⟩ := h l (List.mem_cons_self _ _)
    have hrest : ∀ x ∈ ls, pyStrip x = x ∧ x ≠ [] ∧ 40 ≤ x.length :=
      fun x hx => h x (List.mem_cons_of_mem _ hx)
    have hr : rstrip l = l := rstrip_eq_self_of_pyStrip hstrip
    obtain ⟨heq, _⟩ := jblMergeRun_eq_pdfMergeRun ls l hrest hlen
    simp only [jblRunsAux, pdfJoinedAux, hr, if_neg hne, heq]
    rw [jblRunsAux_eq_pdfJoinedAux f (pdfMergeRun l ls).2
      (fun x hx => hrest x ((heq ▸ jblMergeRun_suffix ls l).subset hx))]

/-- Claim C1, amended: the run-merging loops of the pdf and docx builders
are the same function, but they are not the reflow engine's: the
assembler's short-line disjunct fires whenever the buffer is shorter than
40 characters, with no requirement that the next line start lowercase.  The
three loops only provably agree on buffers of stripped non-blank lines of
length at least 40, where the short-line clause is mute in all of them. -/
theorem c1_merge_heuristics :
    (∀ lines : List PyStr, pdfJoined lines = docxJoined lines) ∧
    (∀ lines : List PyStr, (∀ l ∈ lines, pyStrip l = l ∧ l ≠ [] ∧ 40 ≤ l.length) →
      jblRuns lines = pdfJoined lines) :=
  ⟨fun lines => pdfJoinedAux_eq_docxJoinedAux lines.length lines,
   fun lines h => jblRunsAux_eq_pdfJoinedAux lines.length lines h⟩

/-- Witness for `c1_merge_heuristics` on two concrete 40-character lines. -/
theorem c1_merge_heuristics_witness :
    pdfJoined [List.replicate 40 'x', List.replicate 40 'Y']
      = docxJoined [List.replicate 40 'x', List.replicate 40 'Y'] ∧
    jblRuns [List.replicate 40 'x', List.replicate 40 'Y']
      = pdfJoined [List.replicate 40 'x', List.replicate 40 'Y'] :=
  ⟨c1_merge_heuristics.1 _, c1_merge_heuristics.2 _ (by decide)⟩

/-- Claim C1 fails as stated: on the two non-blank lines `Hello` / `World`
the reflow engine keeps two separate runs (the next line starts uppercase,
so neither continuation clause fires and the short-line clause requires a
lowercase start), while the assembler merges them into a single run because
its short-line test fires on any sub-40-character buffer. -/
theorem c1_counterexample :
    (∀ l ∈ ["Hello".toList, "World".toList], pyStrip l ≠ []) ∧
    jblRuns ["Hello".toList, "World".toList]
      ≠ pdfJoined ["Hello".toList, "World".toList] ∧
    jblRuns ["Hello".toList, "World".toList] = ["Hello".toList, "World".toList] ∧
    pdfJoined ["Hello".toList, "World".toList] = ["Hello World".toList] := by
  refine ⟨by decide, by decide, by decide, by decide⟩

/-- Witness for `c6_table_round_trip` on the concrete table
`|h1|h2| / |---|---| / |a1|a2| / |b1|b2|`. -/
theorem c6_table_round_trip_witness :
    pdfBlocks [mkRow "h1".toList "h2".toList, "|---|---|".toList,
        mkRow "a1".toList "a2".toList, mkRow "b1".toList "b2".toList]
      = [Block.table [[pyStrip "h1".toList, pyStrip "h2".toList],
          [pyStrip "a1".toList, pyStrip "a2".toList],
          [pyStrip "b1".toList, pyStrip "b2".toList]]] ∧
    docxBlocks [mkRow "h1".toList "h2".toList, "|---|---|".toList,
        mkRow "a1".toList "a2".toList, mkRow "b1".toList "b2".toList]
      = [Block.table [[pyStrip "h1".toList, pyStrip "h2".toList],
          [pyStrip "a1".toList, pyStrip "a2".toList],
          [pyStrip "b1".toList, pyStrip "b2".toList]]] :=
  c6_table_round_trip "h1".toList "h2".toList "a1".toList "a2".toList
    "b1".toList "b2".toList "|---|---|".toList
    (by decide) (by decide) (by decide) (by decide) (by decide) (by decide)
    (by decide) (by decide) (by decide) (by decide) (by decide) (by decide)
    (by decide) (by decide)

/-- Python `str.lower()`, restricted to ASCII case folding (the
classification keys in scope are ASCII). -/
def pyLower (c : Char) : Char := c.toLower

/-- Worker for `re.sub(r"\s+", " ", s)`: every maximal whitespace run
becomes one space; `prev` records whether the previous character was
whitespace. -/
def cwAux (prev : Bool) : PyStr → PyStr
  | [] => []
  | c :: rest =>
    if pyWS c then
      if prev then cwAux true rest else ' ' :: cwAux true rest
    else c :: cwAux false rest

/-- `re.sub(r"\s+", " ", s)`. -/
def collapseWSRuns (s : PyStr) : PyStr := cwAux false s

/-- `\d` of the page-number pattern, as an ASCII digit (Python's `\d` also
matches other Unicode decimal digits, which never occur in the keys in
scope). -/
def pyDigit (c : Char) : Bool := c.isDigit

/-- A match of the regex `page\s*\d+(\s*of\s*\d+)?` at the head of `s`:
returns the remainder after the matched text, or `none`.  The pattern is
deterministic -- the greedy `\s*`/`\d+` cannot trade characters with the
literals that follow them. -/
def matchPage (s : PyStr) : Option PyStr :=
  match s with
  | 'p' :: 'a' :: 'g' :: 'e' :: rest =>
    let r1 := rest.dropWhile pyWS
    if (r1.takeWhile pyDigit).isEmpty then none
    else
      let r2 := r1.dropWhile pyDigit
      match r2.dropWhile pyWS with
      | 'o' :: 'f' :: r4 =>
        let r5 := r4.dropWhile pyWS
        if (r5.takeWhile pyDigit).isEmpty then some r2 else some (r5.dropWhile pyDigit)
      | _ => some r2
  | _ => none

/-- `re.sub(r"page\s*\d+(\s*of\s*\d+)?", "", s)`: each leftmost
non-overlapping match is removed; fuel dominates the length. -/
def pageSubAux : Nat → PyStr → PyStr
  | 0, l => l
  | _ + 1, [] => []
  | f + 1, c :: rest =>
    match matchPage (c :: rest) with
    | some rem => pageSubAux f rem
    | none => c :: pageSubAux f rest

/-- `re.sub(r"page\s*\d+(\s*of\s*\d+)?", "", s)`. -/
def pageSub (s : PyStr) : PyStr := pageSubAux s.length s

/-- `normalize_short` from `src/backend/utils.py`: strip, lower-case,
collapse whitespace runs, remove "page N (of M)" patterns, strip again. -/
def normalize_short (s : PyStr) : PyStr :=
  pyStrip (pageSub (collapseWSRuns ((pyStrip s).map pyLower)))

/-- The stripped non-empty lines of a page (`nonempty` in the counting
phase of remove_repeated_header_footer). -/
def pageNonempty (lines : List PyStr) : List PyStr :=
  (lines.filter fun ln => !(pyStrip ln).isEmpty).map pyStrip

/-- The keys of the up-to-three top candidate lines of a page. -/
def topKeys (lines : List PyStr) : List PyStr :=
  ((pageNonempty lines).take 3).map normalize_short

/-- The keys of the up-to-three bottom candidate lines of a page, collected
from the last line upward. -/
def botKeys (lines : List PyStr) : List PyStr :=
  ((pageNonempty lines).reverse.take 3).map normalize_short

/-- The tally of a key over all pages' top candidates (the dict increments
of the counting loop produce exactly this multiplicity). -/
def topCount (pages : List (List PyStr)) (k : PyStr) : Nat :=
  ((pages.map topKeys).flatten).count k

/-- The tally of a key over all pages' bottom candidates. -/
def botCount (pages : List (List PyStr)) (k : PyStr) : Nat :=
  ((pages.map botKeys).flatten).count k

/-- A key tallied on strictly more than 50% of pages at the top (the float
test `v > page_count * 0.5` is exact for these integers -- 0.5 is dyadic --
and equals `page_count < 2*v`). -/
def isHeaderKey (pages : List (List PyStr)) (k : PyStr) : Bool :=
  pages.length < 2 * topCount pages k

/-- A key tallied on strictly more than 50% of pages at the bottom. -/
def isFooterKey (pages : List (List PyStr)) (k : PyStr) : Bool :=
  pages.length < 2 * botCount pages k

/-- The top-of-page removal loop: skip leading lines whose stripped text is
non-empty and whose key is a header key. -/
def dropHeaderLines (hdr : PyStr → Bool) (lines : List PyStr) : List PyStr :=
  lines.dropWhile fun ln => !(pyStrip ln).isEmpty && hdr (normalize_short ln)

/-- The bottom-of-page removal loop: pop trailing lines whose stripped text
is non-empty and whose key is a footer key. -/
def popFooterLines (ftr : PyStr → Bool) (lines : List PyStr) : List PyStr :=
  (lines.reverse.dropWhile fun ln => !(pyStrip ln).isEmpty && ftr (normalize_short ln)).reverse

/-- The per-page cleanup of remove_repeated_header_footer: drop the header
prefix, pop the footer suffix, then strip every kept line and drop the
blank ones. -/
def cleanPage (hdr ftr : PyStr → Bool) (lines : List PyStr) : List PyStr :=
  ((popFooterLines ftr (dropHeaderLines hdr lines)).map pyStrip).filter fun ln => !ln.isEmpty

/-- `remove_repeated_header_footer` from `src/backend/utils.py`. -/
def remove_repeated_header_footer (pages_lines : List (List PyStr)) : List (List PyStr) :=
  if pages_lines.isEmpty then pages_lines
  else pages_lines.map (cleanPage (isHeaderKey pages_lines) (isFooterKey pages_lines))

/-- Dropping a satisfied predicate twice is dropping it once. -/
theorem dropWhile_idem {p : Char → Bool} : ∀ l : PyStr,
    (l.dropWhile p).dropWhile p = l.dropWhile p
  | [] => rfl
  | c :: rest => by
    by_cases h : p c = true
    · simp only [List.dropWhile_cons, h, if_true]
      exact dropWhile_idem rest
    · simp only [List.dropWhile_cons, h]
      simp [h]

/-- The head surviving a `dropWhile` fails the predicate. -/
theorem dropWhile_head_not {p : Char → Bool} : ∀ (l : PyStr) (c : Char),
    (l.dropWhile p).head? = some c → p c = false
  | [], c, h => by simp at h
  | a :: rest, c, h => by
    by_cases ha : p a = true
    · rw [List.dropWhile_cons, if_pos ha] at h
      exact dropWhile_head_not rest c h
    · rw [List.dropWhile_cons, if_neg ha] at h
      cases h
      simpa using ha

/-- Every string is its right-strip followed by the stripped whitespace
tail. -/
theorem rstrip_decomp (l : PyStr) :
    l = rstrip l ++ (l.reverse.takeWhile pyWS).reverse := by
  conv_lhs => rw [← l.reverse_reverse]
  conv_lhs => rw [← List.takeWhile_append_dropWhile (p := pyWS) (l := l.reverse)]
  rw [List.reverse_append]
  rfl

/-- A non-empty right-strip preserves the head of the string. -/
theorem head?_rstrip (l : PyStr) : rstrip l = [] ∨ (rstrip l).head? = l.head? := by
  cases h : rstrip l with
  | nil => exact Or.inl rfl
  | cons c t =>
    refine Or.inr ?_
    conv_rhs => rw [rstrip_decomp l, h]
    simp

/-- `lstrip` is idempotent. -/
theorem lstrip_idem (l : PyStr) : lstrip (lstrip l) = lstrip l := dropWhile_idem l

/-- `rstrip` is idempotent. -/
theorem rstrip_idem (l : PyStr) : rstrip (rstrip l) = rstrip l := by
  unfold rstrip
  rw [List.reverse_reverse, dropWhile_idem]

/-- A left-stripped string is untouched by another `lstrip`, even after a
right-strip. -/
theorem lstrip_rstrip_lstrip (l : PyStr) : lstrip (rstrip (lstrip l)) = rstrip (lstrip l) := by
  rcases head?_rstrip (lstrip l) with h | h
  · rw [h]; rfl
  · cases hh : (rstrip (lstrip l)).head? with
    | none =>
      rw [List.head?_eq_none_iff] at hh
      rw [hh]; rfl
    | some c =>
      have hc : pyWS c = false := by
        rw [h] at hh
        exact dropWhile_head_not l c hh
      cases hr : rstrip (lstrip l) with
      | nil => rfl
      | cons d t =>
        rw [hr] at hh
        simp only [List.head?_cons, Option.some.injEq] at hh
        subst hh
        unfold lstrip
        simp [List.dropWhile_cons, hc]

/-- Python `strip` is idempotent. -/
theorem pyStrip_idem (l : PyStr) : pyStrip (pyStrip l) = pyStrip l := by
  unfold pyStrip
  rw [lstrip_rstrip_lstrip, rstrip_idem]

/-- `normalize_short` already strips its input, so stripping first changes
nothing. -/
theorem normalize_short_pyStrip (s : PyStr) :
    normalize_short (pyStrip s) = normalize_short s := by
  unfold normalize_short
  rw [pyStrip_idem]

/-- With only non-blank lines, the counting phase sees exactly the stripped
lines. -/
theorem pageNonempty_of_nonblank (lines : List PyStr)
    (h : ∀ l ∈ lines, pyStrip l ≠ []) : pageNonempty lines = lines.map pyStrip := by
  unfold pageNonempty
  rw [List.filter_eq_self.2 (fun l hl => by simpa using h l hl)]

/-- Membership in a take extends to any longer take. -/
theorem mem_take_mono : ∀ (m n : Nat) (l : List PyStr) (x : PyStr),
    m ≤ n → x ∈ l.take m → x ∈ l.take n
  | _, _, [], _, _, hx => by simp at hx
  | 0, _, _ :: _, _, _, hx => by simp at hx
  | m + 1, n, c :: rest, x, hmn, hx => by
    obtain ⟨k, rfl⟩ : ∃ k, n = k + 1 := ⟨n - 1, by omega⟩
    simp only [List.take_succ_cons, List.mem_cons] at hx ⊢
    rcases hx with hx | hx
    · exact Or.inl hx
    · exact Or.inr (mem_take_mono m k rest x (by omega) hx)

/-- A page splitting into a header-keyed part followed by a footer-keyed
part is removed completely by the per-page cleanup. -/
theorem cleanPage_eq_nil (hdr ftr : PyStr → Bool) (pre post : List PyStr)
    (hpre : ∀ l ∈ pre, (!(pyStrip l).isEmpty && hdr (normalize_short l)) = true)
    (hpost : ∀ l ∈ post, (!(pyStrip l).isEmpty && ftr (normalize_short l)) = true) :
    cleanPage hdr ftr (pre ++ post) = [] := by
  unfold cleanPage dropHeaderLines popFooterLines
  rw [List.dropWhile_append,
    List.dropWhile_eq_nil_iff.2 hpre]
  simp only [List.isEmpty_nil, if_true]
  rw [List.dropWhile_eq_nil_iff.2 (fun x hx => hpost x
    ((List.dropWhile_suffix _).subset (List.mem_reverse.1 hx)))]
  rfl

/-- On a one-page input, any key among the page's top candidates passes the
>50% threshold. -/
theorem isHeaderKey_single (lines : List PyStr) (k : PyStr)
    (h : k ∈ topKeys lines) : isHeaderKey [lines] k = true := by
  unfold isHeaderKey topCount
  simp only [List.map_cons, List.map_nil, List.flatten_cons, List.flatten_nil,
    List.append_nil, List.length_cons, List.length_nil]
  have hpos := List.count_pos_iff.2 h
  rw [decide_eq_true_iff]
  omega

/-- On a one-page input, any key among the page's bottom candidates passes
the >50% threshold. -/
theorem isFooterKey_single (lines : List PyStr) (k : PyStr)
    (h : k ∈ botKeys lines) : isFooterKey [lines] k = true := by
  unfold isFooterKey botCount
  simp only [List.map_cons, List.map_nil, List.flatten_cons, List.flatten_nil,
    List.append_nil, List.length_cons, List.length_nil]
  have hpos := List.count_pos_iff.2 h
  rw [decide_eq_true_iff]
  omega

/-- Claim C9: one page of one to six non-blank lines comes back as a single
page with zero lines: every line sits within the first three or the last
three non-empty lines, so on a one-page input its key passes the >50%
threshold (1 > 0.5), and the header prefix followed by the footer suffix
consume the whole page. -/
theorem c9_single_page_stripped (lines : List PyStr)
    (h1 : 1 ≤ lines.length) (h6 : lines.length ≤ 6)
    (hnb : ∀ l ∈ lines, pyStrip l ≠ []) :
    remove_repeated_header_footer [lines] = [[]] := by
  have htop : topKeys lines = (lines.take 3).map fun l => normalize_short (pyStrip l) := by
    unfold topKeys
    rw [pageNonempty_of_nonblank lines hnb, ← List.map_take, List.map_map]
    rfl
  have hbot : botKeys lines = (lines.reverse.take 3).map fun l => normalize_short (pyStrip l) := by
    unfold botKeys
    rw [pageNonempty_of_nonblank lines hnb, ← List.map_reverse, ← List.map_take, List.map_map]
    rfl
  unfold remove_repeated_header_footer
  rw [if_neg (by simp)]
  simp only [List.map_cons, List.map_nil, List.cons.injEq, and_true]
  rw [← List.take_append_drop (lines.length - 3) lines]
  apply cleanPage_eq_nil
  · intro l hl
    have hmem : l ∈ lines := (List.take_subset _ _) hl
    have hl3 : l ∈ lines.take 3 := mem_take_mono _ 3 lines l (by omega) hl
    have hkey : normalize_short l ∈ topKeys lines := by
      rw [htop, ← normalize_short_pyStrip]
      exact List.mem_map.2 ⟨l, hl3, rfl⟩
    simp [hnb l hmem, isHeaderKey_single lines _ hkey]
  · intro l hl
    have hmem : l ∈ lines := (List.drop_subset _ _) hl
    have hrev : l ∈ lines.reverse.take (lines.length - (lines.length - 3)) := by
      rw [← List.reverse_drop]
      exact List.mem_reverse.2 hl
    have hl3 : l ∈ lines.reverse.take 3 :=
      mem_take_mono _ 3 lines.reverse l (by omega) hrev
    have hkey : normalize_short l ∈ botKeys lines := by
      rw [hbot, ← normalize_short_pyStrip]
      exact List.mem_map.2 ⟨l, hl3, rfl⟩
    simp [hnb l hmem, isFooterKey_single lines _ hkey]

/-- Witness for `c9_single_page_stripped` on a concrete four-line page. -/
theorem c9_single_page_stripped_witness :
    remove_repeated_header_footer
      [["Alpha".toList, "Beta".toList, "Gamma".toList, "Delta".toList]] = [[]] :=
  c9_single_page_stripped _ (by decide) (by decide) (by decide)

/-- A non-empty suffix keeps the last element. -/
theorem getLast?_of_suffix {l1 l2 : List PyStr} (h : l1 <:+ l2) (hne : l1 ≠ []) :
    l1.getLast? = l2.getLast? := by
  obtain ⟨t, rfl⟩ := h
  exact (List.getLast?_append_of_ne_nil t hne).symm

/-- A list whose last line is blank is untouched by the footer-popping
loop: the pop condition fails at once on the blank last line. -/
theorem popFooterLines_of_last_blank (ftr : PyStr → Bool) (l : List PyStr)
    (h : ∀ lb, l.getLast? = some lb → pyStrip lb = []) : popFooterLines ftr l = l := by
  cases hr : l.reverse with
  | nil =>
    have h0 : l = [] := by simpa using congrArg List.reverse hr
    simp [popFooterLines, h0]
  | cons x xs =>
    have hxl : l.getLast? = some x := by
      rw [← List.head?_reverse, hr]
      rfl
    have hb := h x hxl
    unfold popFooterLines
    rw [hr, List.dropWhile_cons]
    rw [show (!(pyStrip x).isEmpty && ftr (normalize_short x)) = false by rw [hb]; simp]
    simp only [Bool.false_eq_true, if_false]
    rw [← hr, List.reverse_reverse]

/-- Claim C10: when a page's last line is blank, the footer-popping loop
stops immediately (its `middle[-1].strip()` test is falsy), so the page's
output is exactly the stripped non-blank remainder after header-prefix
removal, and every non-blank line that survived header removal is retained
even when its key is a footer key. -/
theorem c10_blank_last_line_keeps_footer (pages : List (List PyStr))
    (i : Nat) (page : List PyStr) (hpage : pages[i]? = some page)
    (lb : PyStr) (hlast : page.getLast? = some lb) (hblank : pyStrip lb = []) :
    (remove_repeated_header_footer pages)[i]?
      = some (((dropHeaderLines (isHeaderKey pages) page).map pyStrip).filter
          fun ln => !ln.isEmpty) ∧
    ∀ l ∈ dropHeaderLines (isHeaderKey pages) page, pyStrip l ≠ [] →
      pyStrip l ∈ ((dropHeaderLines (isHeaderKey pages) page).map pyStrip).filter
          fun ln => !ln.isEmpty := by
  have hne : pages ≠ [] := by
    intro h
    rw [h] at hpage
    simp at hpage
  have hpop : popFooterLines (isFooterKey pages) (dropHeaderLines (isHeaderKey pages) page)
      = dropHeaderLines (isHeaderKey pages) page := by
    apply popFooterLines_of_last_blank
    intro lb' hlb'
    have hne' : dropHeaderLines (isHeaderKey pages) page ≠ [] := by
      intro h0
      rw [h0] at hlb'
      simp at hlb'
    have hsuf : dropHeaderLines (isHeaderKey pages) page <:+ page :=
      List.dropWhile_suffix _
    rw [getLast?_of_suffix hsuf hne', hlast] at hlb'
    cases hlb'
    exact hblank
  constructor
  · unfold remove_repeated_header_footer
    rw [if_neg (by simpa using hne)]
    rw [List.getElem?_map, hpage, Option.map_some']
    unfold cleanPage
    rw [hpop]
  · intro l hl hlne
    refine List.mem_filter.2 ⟨List.mem_map.2 ⟨l, hl, rfl⟩, by simpa using hlne⟩

/-- Witness for `c10_blank_last_line_keeps_footer`: the page
`Top / mid / Footer / " "` keeps `Footer` although `footer` is a footer key
of the two-page input. -/
theorem c10_blank_last_line_keeps_footer_witness :
    (remove_repeated_header_footer
        [["Top".toList, "mid".toList, "Footer".toList, " ".toList],
         ["x".toList, "Footer".toList]])[0]?
      = some (((dropHeaderLines
          (isHeaderKey [["Top".toList, "mid".toList, "Footer".toList, " ".toList],
            ["x".toList, "Footer".toList]])
          ["Top".toList, "mid".toList, "Footer".toList, " ".toList]).map pyStrip).filter
            fun ln => !ln.isEmpty) ∧
    ∀ l ∈ dropHeaderLines
        (isHeaderKey [["Top".toList, "mid".toList, "Footer".toList, " ".toList],
          ["x".toList, "Footer".toList]])
        ["Top".toList, "mid".toList, "Footer".toList, " ".toList],
      pyStrip l ≠ [] →
      pyStrip l ∈ ((dropHeaderLines
          (isHeaderKey [["Top".toList, "mid".toList, "Footer".toList, " ".toList],
            ["x".toList, "Footer".toList]])
          ["Top".toList, "mid".toList, "Footer".toList, " ".toList]).map pyStrip).filter
            fun ln => !ln.isEmpty :=
  c10_blank_last_line_keeps_footer _ 0 _ (by decide) " ".toList (by decide) (by decide)

/-- The per-page cleanup of a synthetic page: the header line is dropped at
the top, the footer line is popped at the bottom, and the stripped body
lines survive. -/
theorem cleanPage_synth (hdrF ftrF : PyStr → Bool) (hdr : PyStr) (body : List PyStr)
    (foot : PyStr)
    (h_hd : (!(pyStrip hdr).isEmpty && hdrF (normalize_short hdr)) = true)
    (h_body_h : ∀ b ∈ body, hdrF (normalize_short b) = false)
    (h_body_f : ∀ b ∈ body, ftrF (normalize_short b) = false)
    (h_body_nb : ∀ b ∈ body, pyStrip b ≠ [])
    (h_foot_nb : pyStrip foot ≠ [])
    (h_foot_f : ftrF (normalize_short foot) = true) :
    cleanPage hdrF ftrF (hdr :: (body ++ [foot])) = body.map pyStrip := by
  cases body with
  | nil =>
    by_cases hf : hdrF (normalize_short foot) = true
    · have hmid : dropHeaderLines hdrF (hdr :: ([] ++ [foot])) = [] := by
        unfold dropHeaderLines
        rw [List.nil_append, List.dropWhile_cons, if_pos h_hd, List.dropWhile_cons,
          if_pos (by simp [hf, List.isEmpty_eq_false.2 h_foot_nb])]
        rfl
      unfold cleanPage
      rw [hmid]
      rfl
    · have hmid : dropHeaderLines hdrF (hdr :: ([] ++ [foot])) = [foot] := by
        unfold dropHeaderLines
        rw [List.nil_append, List.dropWhile_cons, if_pos h_hd, List.dropWhile_cons,
          if_neg (by simp [Bool.eq_false_iff.2 hf])]
      have hpop : popFooterLines ftrF [foot] = [] := by
        unfold popFooterLines
        rw [show ([foot] : List PyStr).reverse = [foot] from rfl, List.dropWhile_cons,
          if_pos (by simp [h_foot_f, List.isEmpty_eq_false.2 h_foot_nb])]
        rfl
      unfold cleanPage
      rw [hmid, hpop]
      rfl
  | cons b bs =>
    have hmid : dropHeaderLines hdrF (hdr :: ((b :: bs) ++ [foot])) = (b :: bs) ++ [foot] := by
      unfold dropHeaderLines
      rw [List.dropWhile_cons, if_pos h_hd, List.cons_append, List.dropWhile_cons,
        if_neg (by simp [h_body_h b (List.mem_cons_self _ _)])]
    have hpop : popFooterLines ftrF ((b :: bs) ++ [foot]) = b :: bs := by
      unfold popFooterLines
      rw [List.reverse_append, show ([foot] : List PyStr).reverse = [foot] from rfl,
        List.singleton_append, List.dropWhile_cons,
        if_pos (by simp [h_foot_f, List.isEmpty_eq_false.2 h_foot_nb])]
      cases hbr : (b :: bs).reverse with
      | nil => simp at hbr
      | cons y ys =>
        have hy : y ∈ b :: bs := by
          have hy' : y ∈ (b :: bs).reverse := by
            rw [hbr]
            exact List.mem_cons_self _ _
          exact List.mem_reverse.1 hy'
        rw [List.dropWhile_cons, if_neg (by simp [h_body_f y hy]), ← hbr,
          List.reverse_reverse]
    unfold cleanPage
    rw [hmid, hpop]
    rw [List.filter_eq_self.2]
    intro a ha
    rcases List.mem_map.1 ha with ⟨b', hb', rfl⟩
    simpa using h_body_nb b' hb'

/-- A list of naturals each at least one sums to at least its length. -/
theorem length_le_sum_of_pos : ∀ l : List Nat, (∀ x ∈ l, 1 ≤ x) → l.length ≤ l.sum
  | [], _ => le_refl 0
  | x :: rest, h => by
    simp only [List.length_cons, List.sum_cons]
    have h1 := h x (List.mem_cons_self _ _)
    have h2 := length_le_sum_of_pos rest (fun y hy => h y (List.mem_cons_of_mem _ hy))
    omega

/-- Keys are computed on stripped lines, and stripping first does not
change them. -/
theorem map_ns_strip (l : List PyStr) :
    (l.map pyStrip).map normalize_short = l.map normalize_short := by
  rw [List.map_map]
  exact List.map_congr_left fun b _ => normalize_short_pyStrip b

/-- All lines of a synthetic page `header :: body ++ [footer]` are
non-blank. -/
theorem synth_nonblank (hdr : PyStr) (body : List PyStr) (foot : PyStr)
    (h_hdr_nb : pyStrip hdr ≠ []) (h_body_nb : ∀ b ∈ body, pyStrip b ≠ [])
    (h_foot_nb : pyStrip foot ≠ []) :
    ∀ l ∈ hdr :: (body ++ [foot]), pyStrip l ≠ [] := by
  intro l hl
  rcases List.mem_cons.1 hl with rfl | hl
  · exact h_hdr_nb
  · rcases List.mem_append.1 hl with hl | hl
    · exact h_body_nb l hl
    · rw [List.mem_singleton.1 hl]
      exact h_foot_nb

/-- The top candidate keys of a synthetic page `header :: body ++ [footer]`
with non-blank lines: the header key followed by the first two of the body
keys and the footer key. -/
theorem topKeys_synth (hdr : PyStr) (body : List PyStr) (foot : PyStr)
    (h_hdr_nb : pyStrip hdr ≠ []) (h_body_nb : ∀ b ∈ body, pyStrip b ≠ [])
    (h_foot_nb : pyStrip foot ≠ []) :
    topKeys (hdr :: (body ++ [foot]))
      = normalize_short hdr :: ((body.map normalize_short) ++ [normalize_short foot]).take 2 := by
  unfold topKeys
  rw [pageNonempty_of_nonblank _ (synth_nonblank hdr body foot h_hdr_nb h_body_nb h_foot_nb)]
  simp only [List.map_cons, List.map_append, List.map_nil, List.take_succ_cons, List.map_cons]
  rw [normalize_short_pyStrip]
  congr 1
  rw [show List.map pyStrip body ++ [pyStrip foot]
        = (body ++ [foot]).map pyStrip by simp]
  rw [← List.map_take, map_ns_strip, List.map_take, List.map_append]
  simp [normalize_short_pyStrip]

/-- The bottom candidate keys of a synthetic page
`header :: body ++ [footer]` with non-blank lines: the footer key followed
by the last two of the body and header keys, read upward. -/
theorem botKeys_synth (hdr : PyStr) (body : List PyStr) (foot : PyStr)
    (h_hdr_nb : pyStrip hdr ≠ []) (h_body_nb : ∀ b ∈ body, pyStrip b ≠ [])
    (h_foot_nb : pyStrip foot ≠ []) :
    botKeys (hdr :: (body ++ [foot]))
      = normalize_short foot
          :: ((body.map normalize_short).reverse ++ [normalize_short hdr]).take 2 := by
  unfold botKeys
  rw [pageNonempty_of_nonblank _ (synth_nonblank hdr body foot h_hdr_nb h_body_nb h_foot_nb)]
  simp only [List.map_cons, List.map_append, List.map_nil, List.reverse_cons,
    List.reverse_append, List.reverse_nil, List.nil_append, List.singleton_append,
    List.cons_append, List.take_succ_cons, List.map_cons]
  rw [normalize_short_pyStrip]
  congr 1
  rw [show (List.map pyStrip body).reverse ++ [pyStrip hdr]
        = (body.reverse ++ [hdr]).map pyStrip by simp]
  rw [← List.map_take, map_ns_strip, List.map_take, List.map_append]
  simp [normalize_short_pyStrip]

/-- A key occurs at most once in a duplicate-free list of keys. -/
theorem count_le_one_of_nodup : ∀ {l : List PyStr}, l.Nodup → ∀ a : PyStr, l.count a ≤ 1
  | [], _, _ => by simp
  | x :: xs, h, a => by
    rcases List.nodup_cons.1 h with ⟨hx, hxs⟩
    rw [List.count_cons]
    by_cases hax : a = x
    · subst hax
      rw [List.count_eq_zero_of_not_mem hx]
      simp
    · have hbeq : (x == a) = false := beq_false_of_ne (Ne.symm hax)
      rw [hbeq]
      have hr := count_le_one_of_nodup hxs a
      simp only [Bool.false_eq_true, if_false]
      omega

/-- N ≥ 2 synthetic pages sharing a non-blank header line, with page-wise
distinct non-blank body lines (keys distinct from the header key and from
the empty key) and per-page footer lines whose keys normalize to the empty
string, are cleaned by remove_repeated_header_footer to exactly their
stripped bodies. -/
theorem rhf_synth (N : Nat) (hN : 2 ≤ N) (hdr : PyStr)
    (body : Nat → List PyStr) (foot : Nat → PyStr)
    (hhdr_nb : pyStrip hdr ≠ [])
    (hbody_nb : ∀ i < N, ∀ b ∈ body i, pyStrip b ≠ [])
    (hbody_hk : ∀ i < N, ∀ b ∈ body i, normalize_short b ≠ normalize_short hdr)
    (hbody_fk : ∀ i < N, ∀ b ∈ body i, normalize_short b ≠ [])
    (hbody_nodup : (((List.range N).map fun i => (body i).map normalize_short).flatten).Nodup)
    (hfoot_nb : ∀ i < N, pyStrip (foot i) ≠ [])
    (hfoot_key : ∀ i < N, normalize_short (foot i) = []) :
    remove_repeated_header_footer ((List.range N).map fun i => hdr :: (body i ++ [foot i]))
      = (List.range N).map fun i => (body i).map pyStrip := by
  have hlen : ((List.range N).map fun i => hdr :: (body i ++ [foot i])).length = N := by simp
  have htop : ∀ i ∈ List.range N,
      topKeys (hdr :: (body i ++ [foot i]))
        = normalize_short hdr :: (((body i).map normalize_short) ++ [[]]).take 2 := by
    intro i hi
    have hiN := List.mem_range.1 hi
    rw [topKeys_synth hdr (body i) (foot i) hhdr_nb (hbody_nb i hiN) (hfoot_nb i hiN),
      hfoot_key i hiN]
  have hbot : ∀ i ∈ List.range N,
      botKeys (hdr :: (body i ++ [foot i]))
        = [] :: (((body i).map normalize_short).reverse ++ [normalize_short hdr]).take 2 := by
    intro i hi
    have hiN := List.mem_range.1 hi
    rw [botKeys_synth hdr (body i) (foot i) hhdr_nb (hbody_nb i hiN) (hfoot_nb i hiN),
      hfoot_key i hiN]
  have hTC : ∀ k : PyStr,
      topCount ((List.range N).map fun i => hdr :: (body i ++ [foot i])) k
        = ((List.range N).map fun i => (topKeys (hdr :: (body i ++ [foot i]))).count k).sum := by
    intro k
    unfold topCount
    rw [List.map_map, List.count_flatten, List.map_map]
    rfl
  have hBC : ∀ k : PyStr,
      botCount ((List.range N).map fun i => hdr :: (body i ++ [foot i])) k
        = ((List.range N).map fun i => (botKeys (hdr :: (body i ++ [foot i]))).count k).sum := by
    intro k
    unfold botCount
    rw [List.map_map, List.count_flatten, List.map_map]
    rfl
  have hHdrCount : N ≤ topCount ((List.range N).map fun i => hdr :: (body i ++ [foot i]))
      (normalize_short hdr) := by
    rw [hTC]
    have hone : ∀ x ∈ (List.range N).map
        (fun i => (topKeys (hdr :: (body i ++ [foot i]))).count (normalize_short hdr)),
        1 ≤ x := by
      intro x hx
      rcases List.mem_map.1 hx with ⟨i, hi, rfl⟩
      rw [htop i hi, List.count_cons_self]
      omega
    have hs := length_le_sum_of_pos _ hone
    simpa using hs
  have hFtrCount : N ≤ botCount ((List.range N).map fun i => hdr :: (body i ++ [foot i]))
      ([] : PyStr) := by
    rw [hBC]
    have hone : ∀ x ∈ (List.range N).map
        (fun i => (botKeys (hdr :: (body i ++ [foot i]))).count ([] : PyStr)), 1 ≤ x := by
      intro x hx
      rcases List.mem_map.1 hx with ⟨i, hi, rfl⟩
      rw [hbot i hi, List.count_cons_self]
      omega
    have hs := length_le_sum_of_pos _ hone
    simpa using hs
  have hHdrKey : isHeaderKey ((List.range N).map fun i => hdr :: (body i ++ [foot i]))
      (normalize_short hdr) = true := by
    unfold isHeaderKey
    rw [decide_eq_true_iff, hlen]
    omega
  have hFtrKey : isFooterKey ((List.range N).map fun i => hdr :: (body i ++ [foot i]))
      ([] : PyStr) = true := by
    unfold isFooterKey
    rw [decide_eq_true_iff, hlen]
    omega
  have hBodyTop : ∀ i < N, ∀ b ∈ body i,
      topCount ((List.range N).map fun i => hdr :: (body i ++ [foot i]))
        (normalize_short b) ≤ 1 := by
    intro i hiN b hb
    rw [hTC]
    have hper : ∀ j ∈ List.range N,
        (topKeys (hdr :: (body j ++ [foot j]))).count (normalize_short b)
          ≤ ((body j).map normalize_short).count (normalize_short b) := by
      intro j hj
      rw [htop j hj, List.count_cons_of_ne (hbody_hk i hiN b hb)]
      have h1 := (List.take_sublist 2
        (((body j).map normalize_short) ++ [[]])).count_le (normalize_short b)
      have h2 : ((((body j).map normalize_short) ++ [[]]) : List PyStr).count (normalize_short b)
          = ((body j).map normalize_short).count (normalize_short b) := by
        rw [List.count_append, List.count_cons_of_ne (hbody_fk i hiN b hb), List.count_nil]
        omega
      omega
    have hsle := List.sum_le_sum hper
    have hflat : ((List.range N).map
          fun j => ((body j).map normalize_short).count (normalize_short b)).sum
        = (((List.range N).map fun j => (body j).map normalize_short).flatten).count
            (normalize_short b) := by
      rw [List.count_flatten, List.map_map]
      rfl
    have hnd := count_le_one_of_nodup hbody_nodup (normalize_short b)
    exact (hsle.trans hflat.le).trans hnd
  have hBodyBot : ∀ i < N, ∀ b ∈ body i,
      botCount ((List.range N).map fun i => hdr :: (body i ++ [foot i]))
        (normalize_short b) ≤ 1 := by
    intro i hiN b hb
    rw [hBC]
    have hper : ∀ j ∈ List.range N,
        (botKeys (hdr :: (body j ++ [foot j]))).count (normalize_short b)
          ≤ ((body j).map normalize_short).count (normalize_short b) := by
      intro j hj
      rw [hbot j hj, List.count_cons_of_ne (hbody_fk i hiN b hb)]
      have h1 := (List.take_sublist 2
        ((((body j).map normalize_short).reverse) ++ [normalize_short hdr])).count_le
          (normalize_short b)
      have h2 : (((((body j).map normalize_short).reverse) ++ [normalize_short hdr])
            : List PyStr).count (normalize_short b)
          = ((body j).map normalize_short).count (normalize_short b) := by
        rw [List.count_append, List.count_cons_of_ne (hbody_hk i hiN b hb), List.count_nil,
          List.count_reverse]
        omega
      omega
    have hsle := List.sum_le_sum hper
    have hflat : ((List.range N).map
          fun j => ((body j).map normalize_short).count (normalize_short b)).sum
        = (((List.range N).map fun j => (body j).map normalize_short).flatten).count
            (normalize_short b) := by
      rw [List.count_flatten, List.map_map]
      rfl
    have hnd := count_le_one_of_nodup hbody_nodup (normalize_short b)
    exact (hsle.trans hflat.le).trans hnd
  have hBodyNotHdr : ∀ i < N, ∀ b ∈ body i,
      isHeaderKey ((List.range N).map fun i => hdr :: (body i ++ [foot i]))
        (normalize_short b) = false := by
    intro i hiN b hb
    unfold isHeaderKey
    rw [decide_eq_false_iff_not, hlen]
    have := hBodyTop i hiN b hb
    omega
  have hBodyNotFtr : ∀ i < N, ∀ b ∈ body i,
      isFooterKey ((List.range N).map fun i => hdr :: (body i ++ [foot i]))
        (normalize_short b) = false := by
    intro i hiN b hb
    unfold isFooterKey
    rw [decide_eq_false_iff_not, hlen]
    have := hBodyBot i hiN b hb
    omega
  have hpne : ((List.range N).map fun i => hdr :: (body i ++ [foot i])) ≠ [] := by
    intro h
    have hl := congrArg List.length h
    rw [hlen] at hl
    simp at hl
    omega
  unfold remove_repeated_header_footer
  rw [if_neg (by simp [List.isEmpty_iff, hpne])]
  rw [List.map_map]
  apply List.map_congr_left
  intro i hi
  have hiN := List.mem_range.1 hi
  show cleanPage _ _ (hdr :: (body i ++ [foot i])) = (body i).map pyStrip
  apply cleanPage_synth
  · rw [hHdrKey]
    simp [List.isEmpty_eq_false.2 hhdr_nb]
  · intro b hb
    exact hBodyNotHdr i hiN b hb
  · intro b hb
    exact hBodyNotFtr i hiN b hb
  · exact hbody_nb i hiN
  · exact hfoot_nb i hiN
  · rw [hfoot_key i hiN]
    exact hFtrKey

/-- Claim C4: for every N ≥ 2 synthetic pages that begin with the line
"Confidential Report", end with a "Page i of N" footer line (any line whose
classification key normalizes to the empty string, as every "Page i of N"
line does), and otherwise contain page-distinct non-blank body lines,
remove_repeated_header_footer removes that header line and that footer line
from every page, and neither stripped line appears in any page of the
output. -/
theorem c4_header_footer_removed (N : Nat) (hN : 2 ≤ N)
    (body : Nat → List PyStr) (foot : Nat → PyStr)
    (hbody_nb : ∀ i < N, ∀ b ∈ body i, pyStrip b ≠ [])
    (hbody_hk : ∀ i < N, ∀ b ∈ body i,
      normalize_short b ≠ normalize_short "Confidential Report".toList)
    (hbody_fk : ∀ i < N, ∀ b ∈ body i, normalize_short b ≠ [])
    (hbody_nodup : (((List.range N).map fun i => (body i).map normalize_short).flatten).Nodup)
    (hfoot_nb : ∀ i < N, pyStrip (foot i) ≠ [])
    (hfoot_key : ∀ i < N, normalize_short (foot i) = []) :
    remove_repeated_header_footer
        ((List.range N).map fun i => "Confidential Report".toList :: (body i ++ [foot i]))
      = ((List.range N).map fun i => (body i).map pyStrip) ∧
    ∀ page ∈ remove_repeated_header_footer
        ((List.range N).map fun i => "Confidential Report".toList :: (body i ++ [foot i])),
      "Confidential Report".toList ∉ page ∧ ∀ j < N, foot j ∉ page := by
  have heq := rhf_synth N hN "Confidential Report".toList body foot (by decide)
    hbody_nb hbody_hk hbody_fk hbody_nodup hfoot_nb hfoot_key
  refine ⟨heq, ?_⟩
  intro page hpage
  rw [heq] at hpage
  rcases List.mem_map.1 hpage with ⟨i, hi, rfl⟩
  have hiN := List.mem_range.1 hi
  constructor
  · intro hmem
    rcases List.mem_map.1 hmem with ⟨b, hb, hbe⟩
    have hk : normalize_short b = normalize_short "Confidential Report".toList := by
      rw [← normalize_short_pyStrip b, hbe]
    exact hbody_hk i hiN b hb hk
  · intro j hjN hmem
    rcases List.mem_map.1 hmem with ⟨b, hb, hbe⟩
    have hk : normalize_short b = [] := by
      rw [← normalize_short_pyStrip b, hbe, hfoot_key j hjN]
    exact hbody_fk i hiN b hb hk

/-- Witness for `c4_header_footer_removed`: two concrete pages with
"Confidential Report" headers, distinct bodies, and "Page i of 2"
footers. -/
theorem c4_header_footer_removed_witness :
    remove_repeated_header_footer
        ((List.range 2).map fun i => "Confidential Report".toList
          :: ((if i = 0 then ["body one".toList, "other line".toList]
               else ["body two".toList, "more text".toList])
            ++ [if i = 0 then "Page 1 of 2".toList else "Page 2 of 2".toList]))
      = ((List.range 2).map fun i =>
          (if i = 0 then ["body one".toList, "other line".toList]
           else ["body two".toList, "more text".toList]).map pyStrip) ∧
    ∀ page ∈ remove_repeated_header_footer
        ((List.range 2).map fun i => "Confidential Report".toList
          :: ((if i = 0 then ["body one".toList, "other line".toList]
               else ["body two".toList, "more text".toList])
            ++ [if i = 0 then "Page 1 of 2".toList else "Page 2 of 2".toList])),
      "Confidential Report".toList ∉ page ∧
      ∀ j < 2, (if j = 0 then "Page 1 of 2".toList else "Page 2 of 2".toList) ∉ page :=
  c4_header_footer_removed 2 (by decide)
    (fun i => if i = 0 then ["body one".toList, "other line".toList]
              else ["body two".toList, "more text".toList])
    (fun i => if i = 0 then "Page 1 of 2".toList else "Page 2 of 2".toList)
    (by decide) (by decide) (by decide) (by decide) (by decide) (by decide)

/-- No two adjacent characters are both spaces/tabs. -/
def noHspPair (a b : Char) : Prop := ¬(hspace a = true ∧ hspace b = true)

/-- The whitespace-adjacency discipline the output of normalize_whitespace
obeys: no two adjacent spaces/tabs, and a newline only touches
non-whitespace characters or other newlines. -/
def adjW (a b : Char) : Prop :=
  noHspPair a b ∧
  (a = '\n' → pyWS b = true → b = '\n') ∧
  (b = '\n' → pyWS a = true → a = '\n')

/-- Two newlines may sit next to each other. -/
theorem adjW_nl_nl : adjW '\n' '\n' :=
  ⟨fun h => by revert h; decide, fun _ _ => rfl, fun _ _ => rfl⟩

/-- Characters produced by collapseSpaces come from the input or are the
replacement space. -/
theorem csAux_chars : ∀ (l : PyStr) (p : Bool) (c : Char),
    c ∈ csAux p l → c ∈ l ∨ c = ' '
  | [], p, c, h => by simp [csAux] at h
  | a :: rest, p, c, h => by
    by_cases ha : hspace a = true
    · cases p with
      | true =>
        rw [show csAux true (a :: rest) = csAux true rest by simp [csAux, ha]] at h
        rcases csAux_chars rest true c h with h' | h'
        · exact Or.inl (List.mem_cons_of_mem _ h')
        · exact Or.inr h'
      | false =>
        cases rest with
        | nil =>
          rw [show csAux false [a] = [a] by simp [csAux, ha]] at h
          exact Or.inl h
        | cons d r =>
          by_cases hd : hspace d = true
          · rw [show csAux false (a :: d :: r) = ' ' :: csAux true (d :: r) by
              simp [csAux, ha, hd]] at h
            rcases List.mem_cons.1 h with h' | h'
            · exact Or.inr h'
            · rcases csAux_chars (d :: r) true c h' with h'' | h''
              · exact Or.inl (List.mem_cons_of_mem _ h'')
              · exact Or.inr h''
          · rw [show csAux false (a :: d :: r) = a :: csAux true (d :: r) by
              simp [csAux, ha, hd]] at h
            rcases List.mem_cons.1 h with h' | h'
            · exact Or.inl (h' ▸ List.mem_cons_self _ _)
            · rcases csAux_chars (d :: r) true c h' with h'' | h''
              · exact Or.inl (List.mem_cons_of_mem _ h'')
              · exact Or.inr h''
    · rw [show csAux p (a :: rest) = a :: csAux false rest by
        cases p <;> simp [csAux, ha]] at h
      rcases List.mem_cons.1 h with h' | h'
      · exact Or.inl (h' ▸ List.mem_cons_self _ _)
      · rcases csAux_chars rest false c h' with h'' | h''
        · exact Or.inl (List.mem_cons_of_mem _ h'')
        · exact Or.inr h''

/-- Characters produced by collapseNewlines come from the input or are
newlines. -/
theorem cnAux_chars : ∀ (l : PyStr) (k : Nat) (c : Char),
    c ∈ cnAux k l → c ∈ l ∨ c = '\n'
  | [], _, c, h => by simp [cnAux] at h
  | a :: rest, k, c, h => by
    by_cases ha : a = '\n'
    · by_cases hk : k < 2
      · rw [show cnAux k (a :: rest) = '\n' :: cnAux (k + 1) rest by
          simp [cnAux, ha, hk]] at h
        rcases List.mem_cons.1 h with h' | h'
        · exact Or.inr h'
        · rcases cnAux_chars rest (k + 1) c h' with h'' | h''
          · exact Or.inl (List.mem_cons_of_mem _ h'')
          · exact Or.inr h''
      · rw [show cnAux k (a :: rest) = cnAux k rest by simp [cnAux, ha, hk]] at h
        rcases cnAux_chars rest k c h with h'' | h''
        · exact Or.inl (List.mem_cons_of_mem _ h'')
        · exact Or.inr h''
    · rw [show cnAux k (a :: rest) = a :: cnAux 0 rest by simp [cnAux, ha]] at h
      rcases List.mem_cons.1 h with h' | h'
      · exact Or.inl (h' ▸ List.mem_cons_self _ _)
      · rcases cnAux_chars rest 0 c h' with h'' | h''
        · exact Or.inl (List.mem_cons_of_mem _ h'')
        · exact Or.inr h''

/-- Inside a run (prev = true) the next emitted character is never a
space/tab. -/
theorem csAux_true_head : ∀ (l : PyStr) (c : Char),
    (csAux true l).head? = some c → hspace c = false
  | [], c, h => by simp [csAux] at h
  | a :: rest, c, h => by
    by_cases ha : hspace a = true
    · rw [show csAux true (a :: rest) = csAux true rest by simp [csAux, ha]] at h
      exact csAux_true_head rest c h
    · rw [show csAux true (a :: rest) = a :: csAux false rest by simp [csAux, ha]] at h
      cases h
      simpa using ha

/-- The output of collapseSpaces never has two adjacent spaces/tabs. -/
theorem csAux_chain : ∀ (l : PyStr) (p : Bool), List.Chain' noHspPair (csAux p l)
  | [], p => by cases p <;> simp [csAux]
  | a :: rest, p => by
    by_cases ha : hspace a = true
    · cases p with
      | true =>
        rw [show csAux true (a :: rest) = csAux true rest by simp [csAux, ha]]
        exact csAux_chain rest true
      | false =>
        cases rest with
        | nil =>
          rw [show csAux false [a] = [a] by simp [csAux, ha]]
          simp
        | cons d r =>
          by_cases hd : hspace d = true
          · rw [show csAux false (a :: d :: r) = ' ' :: csAux true (d :: r) by
              simp [csAux, ha, hd]]
            refine List.chain'_cons'.2 ⟨?_, csAux_chain (d :: r) true⟩
            intro y hy
            intro hcon
            rw [csAux_true_head (d :: r) y hy] at hcon
            exact absurd hcon.2 (by simp)
          · rw [show csAux false (a :: d :: r) = a :: csAux true (d :: r) by
              simp [csAux, ha, hd]]
            refine List.chain'_cons'.2 ⟨?_, csAux_chain (d :: r) true⟩
            intro y hy
            intro hcon
            rw [csAux_true_head (d :: r) y hy] at hcon
            exact absurd hcon.2 (by simp)
    · rw [show csAux p (a :: rest) = a :: csAux false rest by
        cases p <;> simp [csAux, ha]]
      refine List.chain'_cons'.2 ⟨?_, csAux_chain rest false⟩
      intro y hy
      intro hcon
      exact absurd hcon.1 (by simp [ha])

/-- A string without adjacent spaces/tabs is untouched by collapseSpaces
when scanning starts outside a run, and also inside a run if the head is
not a space/tab. -/
theorem csAux_eq_self : ∀ (l : PyStr) (p : Bool), List.Chain' noHspPair l →
    (p = true → ∀ c, l.head? = some c → hspace c = false) → csAux p l = l
  | [], p, _, _ => by cases p <;> rfl
  | a :: rest, p, hch, hp => by
    rcases List.chain'_cons'.1 hch with ⟨hpair, hrest⟩
    by_cases ha : hspace a = true
    · cases p with
      | true => exact absurd (hp rfl a rfl) (by simp [ha])
      | false =>
        cases rest with
        | nil => simp [csAux, ha]
        | cons d r =>
          have hd : hspace d = false := by
            have := hpair d rfl
            unfold noHspPair at this
            revert this
            cases hhd : hspace d <;> simp [ha, hhd]
          rw [show csAux false (a :: d :: r) = a :: csAux true (d :: r) by
            simp [csAux, ha, hd]]
          rw [csAux_eq_self (d :: r) true hrest
            (fun _ c hc => by cases hc; exact hd)]
    · rw [show csAux p (a :: rest) = a :: csAux false rest by
        cases p <;> simp [csAux, ha]]
      rw [csAux_eq_self rest false hrest (by intro h; cases h)]

/-- Below the cap, collapseNewlines preserves the head character. -/
theorem cnAux_head_lt (l : PyStr) (k : Nat) (hk : k < 2) :
    (cnAux k l).head? = l.head? := by
  cases l with
  | nil => rfl
  | cons a rest =>
    by_cases ha : a = '\n'
    · rw [show cnAux k (a :: rest) = '\n' :: cnAux (k + 1) rest by simp [cnAux, ha, hk]]
      simp [ha]
    · rw [show cnAux k (a :: rest) = a :: cnAux 0 rest by simp [cnAux, ha]]
      simp

/-- At the cap, collapseNewlines just skips the leading newline run. -/
theorem cnAux_two_dropWhile : ∀ l : PyStr,
    cnAux 2 l = cnAux 2 (l.dropWhile (· == '\n'))
  | [] => rfl
  | a :: rest => by
    by_cases ha : a = '\n'
    · rw [show cnAux 2 (a :: rest) = cnAux 2 rest by simp [cnAux, ha]]
      rw [cnAux_two_dropWhile rest]
      rw [show (a :: rest).dropWhile (· == '\n') = rest.dropWhile (· == '\n') by
        simp [List.dropWhile_cons, ha]]
    · rw [show (a :: rest).dropWhile (· == '\n') = a :: rest by
        simp [List.dropWhile_cons, ha]]

/-- Walking over a run of newlines from a newline, the first different
character seen was adjacent to a newline in the input. -/
theorem chain_nl_dropWhile {R : Char → Char → Prop} (hRnn : R '\n' '\n') :
    ∀ (rest : PyStr), List.Chain' R ('\n' :: rest) →
    ∀ x, (rest.dropWhile (· == '\n')).head? = some x → R '\n' x
  | [], _, x, hx => by simp at hx
  | d :: r', hch, x, hx => by
    rcases List.chain'_cons'.1 hch with ⟨hpair, hrest⟩
    by_cases hd : d = '\n'
    · rw [show (d :: r').dropWhile (· == '\n') = r'.dropWhile (· == '\n') by
        simp [List.dropWhile_cons, hd]] at hx
      exact chain_nl_dropWhile hRnn r' (by rw [← hd]; exact hrest) x hx
    · rw [show (d :: r').dropWhile (· == '\n') = d :: r' by
        simp [List.dropWhile_cons, hd]] at hx
      cases hx
      exact hpair d rfl

/-- collapseNewlines preserves every adjacency discipline that tolerates a
pair of newlines: each adjacent pair of the output is an adjacent pair of
the input or a newline pair. -/
theorem cnAux_chain {R : Char → Char → Prop} (hRnn : R '\n' '\n') :
    ∀ (l : PyStr) (k : Nat), List.Chain' R l → List.Chain' R (cnAux k l)
  | [], _, _ => by simp [cnAux]
  | a :: rest, k, hch => by
    rcases List.chain'_cons'.1 hch with ⟨hpair, hrest⟩
    by_cases ha : a = '\n'
    · by_cases hk : k < 2
      · rw [show cnAux k (a :: rest) = '\n' :: cnAux (k + 1) rest by simp [cnAux, ha, hk]]
        refine List.chain'_cons'.2 ⟨?_, cnAux_chain hRnn rest (k + 1) hrest⟩
        intro y hy
        by_cases hk1 : k + 1 < 2
        · rw [cnAux_head_lt rest (k + 1) hk1] at hy
          exact ha ▸ hpair y hy
        · have hk2 : k + 1 = 2 := by omega
          rw [hk2, cnAux_two_dropWhile rest] at hy
          cases hout : (rest.dropWhile (· == '\n')) with
          | nil => rw [hout] at hy; simp [cnAux] at hy
          | cons x xs =>
            have hxnl : x = '\n' → False := by
              intro hxx
              have := dropWhile_head_not (p := (· == '\n')) rest x (by rw [hout]; rfl)
              simp [hxx] at this
            have hxn : ¬ x = '\n' := fun h => hxnl h
            rw [hout, show cnAux 2 (x :: xs) = x :: cnAux 0 xs by simp [cnAux, hxn]] at hy
            cases hy
            exact chain_nl_dropWhile hRnn rest (ha ▸ hch) y (by rw [hout]; rfl)
      · rw [show cnAux k (a :: rest) = cnAux k rest by simp [cnAux, ha, hk]]
        exact cnAux_chain hRnn rest k hrest
    · rw [show cnAux k (a :: rest) = a :: cnAux 0 rest by simp [cnAux, ha]]
      refine List.chain'_cons'.2 ⟨?_, cnAux_chain hRnn rest 0 hrest⟩
      intro y hy
      rw [cnAux_head_lt rest 0 (by omega)] at hy
      exact hpair y hy

/-- collapseNewlines is idempotent. -/
theorem cnAux_idem : ∀ (l : PyStr) (k : Nat), k ≤ 2 → cnAux k (cnAux k l) = cnAux k l
  | [], k, _ => by simp [cnAux]
  | a :: rest, k, hk2 => by
    by_cases ha : a = '\n'
    · by_cases hk : k < 2
      · rw [show cnAux k (a :: rest) = '\n' :: cnAux (k + 1) rest by simp [cnAux, ha, hk]]
        rw [show cnAux k ('\n' :: cnAux (k + 1) rest)
              = '\n' :: cnAux (k + 1) (cnAux (k + 1) rest) by simp [cnAux, hk]]
        rw [cnAux_idem rest (k + 1) (by omega)]
      · rw [show cnAux k (a :: rest) = cnAux k rest by simp [cnAux, ha, hk]]
        exact cnAux_idem rest k hk2
    · rw [show cnAux k (a :: rest) = a :: cnAux 0 rest by simp [cnAux, ha]]
      rw [show cnAux k (a :: cnAux 0 rest) = a :: cnAux 0 (cnAux 0 rest) by
        simp [cnAux, ha]]
      rw [cnAux_idem rest 0 (by omega)]

/-- collapseNewlines preserves a last character that is not a newline, and
the output stays non-empty. -/
theorem cnAux_getLast : ∀ (l : PyStr) (k : Nat) (c : Char), l.getLast? = some c →
    c ≠ '\n' → (cnAux k l).getLast? = some c
  | [], _, c, h, _ => by simp at h
  | a :: rest, k, c, h, hc => by
    cases rest with
    | nil =>
      have hac : a = c := by simpa using h
      subst hac
      rw [show cnAux k [a] = [a] by simp [cnAux, hc]]
      simp at h ⊢
    | cons d r =>
      have htail : (d :: r).getLast? = some c := by
        rw [List.getLast?_cons_cons] at h
        exact h
      by_cases ha : a = '\n'
      · by_cases hk : k < 2
        · rw [show cnAux k (a :: d :: r) = '\n' :: cnAux (k + 1) (d :: r) by
            simp [cnAux, ha, hk]]
          have hr := cnAux_getLast (d :: r) (k + 1) c htail hc
          cases hout : cnAux (k + 1) (d :: r) with
          | nil => rw [hout] at hr; simp at hr
          | cons z zs =>
            rw [hout] at hr
            rw [List.getLast?_cons_cons]
            exact hr
        · rw [show cnAux k (a :: d :: r) = cnAux k (d :: r) by simp [cnAux, ha, hk]]
          exact cnAux_getLast (d :: r) k c htail hc
      · rw [show cnAux k (a :: d :: r) = a :: cnAux 0 (d :: r) by simp [cnAux, ha]]
        have hr := cnAux_getLast (d :: r) 0 c htail hc
        cases hout : cnAux 0 (d :: r) with
        | nil => rw [hout] at hr; simp at hr
        | cons z zs =>
          rw [hout] at hr
          rw [List.getLast?_cons_cons]
          exact hr

/-- A non-break character is accumulated into the current line. -/
theorem psAux_step_nonbreak (cur : PyStr) (c : Char) (rest : PyStr)
    (hc : isLineBreak c = false) : psAux cur (c :: rest) = psAux (c :: cur) rest := by
  rw [psAux.eq_def]
  simp [hc]

/-- A break character other than a carriage return closes the current line
when input remains. -/
theorem psAux_step_break (cur : PyStr) (c : Char) (rest : PyStr)
    (hc : isLineBreak c = true) (hcr : c ≠ '\r') (hne : rest ≠ []) :
    psAux cur (c :: rest) = cur.reverse :: psAux [] rest := by
  cases rest with
  | nil => exact absurd rfl hne
  | cons r rs =>
    rw [psAux.eq_def]
    simp [hc, hcr]

/-- A trailing break character closes the current line without opening a
new one. -/
theorem psAux_break_end (cur : PyStr) (c : Char) (hc : isLineBreak c = true)
    (hcr : c ≠ '\r') : psAux cur [c] = [cur.reverse] := by
  simp [psAux, hc, hcr]

/-- On carriage-return-free input, the splitter yields at least one line. -/
theorem psAux_ne_nil : ∀ (t cur : PyStr), (∀ c ∈ t, c ≠ '\r') → psAux cur t ≠ []
  | [], cur, _ => by simp [psAux]
  | c :: rest, cur, hcr => by
    by_cases hc : isLineBreak c = true
    · cases rest with
      | nil =>
        rw [psAux_break_end cur c hc (hcr c (List.mem_cons_self _ _))]
        simp
      | cons r rs =>
        rw [psAux_step_break cur c (r :: rs) hc (hcr c (List.mem_cons_self _ _)) (by simp)]
        simp
    · rw [psAux_step_nonbreak cur c rest (by simpa using hc)]
      exact psAux_ne_nil rest (c :: cur) (fun d hd => hcr d (List.mem_cons_of_mem _ hd))

/-- Lines produced by the splitter contain no break characters. -/
theorem psAux_chars : ∀ (t cur : PyStr), (∀ c ∈ t, c ≠ '\r') →
    (∀ c ∈ cur, isLineBreak c = false) →
    ∀ l ∈ psAux cur t, ∀ c ∈ l, isLineBreak c = false
  | [], cur, _, hcur, l, hl, c, hc => by
    simp only [psAux, List.mem_singleton] at hl
    subst hl
    exact hcur c (List.mem_reverse.1 hc)
  | a :: rest, cur, hcr, hcur, l, hl, c, hc => by
    by_cases ha : isLineBreak a = true
    · cases rest with
      | nil =>
        rw [psAux_break_end cur a ha (hcr a (List.mem_cons_self _ _))] at hl
        simp only [List.mem_singleton] at hl
        subst hl
        exact hcur c (List.mem_reverse.1 hc)
      | cons r rs =>
        rw [psAux_step_break cur a (r :: rs) ha (hcr a (List.mem_cons_self _ _))
          (by simp)] at hl
        rcases List.mem_cons.1 hl with hl' | hl'
        · subst hl'
          exact hcur c (List.mem_reverse.1 hc)
        · exact psAux_chars (r :: rs) []
            (fun d hd => hcr d (List.mem_cons_of_mem _ hd)) (by simp) l hl' c hc
    · rw [psAux_step_nonbreak cur a rest (by simpa using ha)] at hl
      exact psAux_chars rest (a :: cur) (fun d hd => hcr d (List.mem_cons_of_mem _ hd))
        (by
          intro d hd
          rcases List.mem_cons.1 hd with rfl | hd'
          · simpa using ha
          · exact hcur d hd') l hl c hc

/-- Every line produced by the splitter sits contiguously inside the
accumulated prefix joined with the remaining input. -/
theorem psAux_within : ∀ (t cur : PyStr), (∀ c ∈ t, c ≠ '\r') →
    ∀ l ∈ psAux cur t, l <:+: (cur.reverse ++ t)
  | [], cur, _, l, hl => by
    simp only [psAux, List.mem_singleton] at hl
    subst hl
    exact ⟨[], [], by simp⟩
  | a :: rest, cur, hcr, l, hl => by
    by_cases ha : isLineBreak a = true
    · cases rest with
      | nil =>
        rw [psAux_break_end cur a ha (hcr a (List.mem_cons_self _ _))] at hl
        simp only [List.mem_singleton] at hl
        subst hl
        exact ⟨[], [a], by simp⟩
      | cons r rs =>
        rw [psAux_step_break cur a (r :: rs) ha (hcr a (List.mem_cons_self _ _))
          (by simp)] at hl
        rcases List.mem_cons.1 hl with hl' | hl'
        · subst hl'
          exact ⟨[], a :: r :: rs, by simp⟩
        · have hwi := psAux_within (r :: rs) []
            (fun d hd => hcr d (List.mem_cons_of_mem _ hd)) l hl'
          rcases hwi with ⟨s, t', hst⟩
          refine ⟨cur.reverse ++ [a] ++ s, t', ?_⟩
          simp only [List.reverse_nil, List.nil_append] at hst
          simp [hst, List.append_assoc]
    · rw [psAux_step_nonbreak cur a rest (by simpa using ha)] at hl
      have hwi := psAux_within rest (a :: cur)
        (fun d hd => hcr d (List.mem_cons_of_mem _ hd)) l hl
      rcases hwi with ⟨s, t', hst⟩
      refine ⟨s, t', ?_⟩
      rw [hst]
      simp

/-- A break-free string splits into the single line made of it. -/
theorem psAux_no_break : ∀ (t cur : PyStr), (∀ c ∈ t, isLineBreak c = false) →
    psAux cur t = [cur.reverse ++ t]
  | [], cur, _ => by simp [psAux]
  | c :: rest, cur, h => by
    rw [psAux_step_nonbreak cur c rest (h c (List.mem_cons_self _ _))]
    rw [psAux_no_break rest (c :: cur) (fun d hd => h d (List.mem_cons_of_mem _ hd))]
    simp

/-- Splitting a break-free segment followed by a newline and a nonempty
remainder closes the segment as one line. -/
theorem psAux_append_nl : ∀ (A cur R : PyStr), (∀ c ∈ A, isLineBreak c = false) →
    R ≠ [] → psAux cur (A ++ '\n' :: R) = (cur.reverse ++ A) :: psAux [] R
  | [], cur, R, _, hR => by
    rw [List.nil_append, psAux_step_break cur '\n' R (by decide) (by decide) hR]
    simp
  | a :: A', cur, R, hA, hR => by
    rw [List.cons_append,
      psAux_step_nonbreak cur a (A' ++ '\n' :: R) (hA a (List.mem_cons_self _ _))]
    rw [psAux_append_nl A' (a :: cur) R (fun d hd => hA d (List.mem_cons_of_mem _ hd)) hR]
    simp

/-- On nonempty input, splitlines is the worker started with an empty
accumulator. -/
theorem pySplitlines_eq (t : PyStr) (h : t ≠ []) : pySplitlines t = psAux [] t := by
  cases t with
  | nil => exact absurd rfl h
  | cons a r => rfl

/-- Lines of splitlines contain no break characters. -/
theorem pySplitlines_chars (t : PyStr) (hcr : ∀ c ∈ t, c ≠ '\r') :
    ∀ l ∈ pySplitlines t, ∀ c ∈ l, isLineBreak c = false := by
  cases t with
  | nil => intro l hl; simp [pySplitlines] at hl
  | cons a r =>
    intro l hl c hc
    exact psAux_chars (a :: r) [] hcr (by simp) l hl c hc

/-- Lines of splitlines sit contiguously inside the input. -/
theorem pySplitlines_within (t : PyStr) (hcr : ∀ c ∈ t, c ≠ '\r') :
    ∀ l ∈ pySplitlines t, l <:+: t := by
  cases t with
  | nil => intro l hl; simp [pySplitlines] at hl
  | cons a r =>
    intro l hl
    have hw := psAux_within (a :: r) [] hcr l hl
    simpa using hw

/-- The first character of a stripped string is not whitespace. -/
theorem pyStrip_head_not (l : PyStr) (c : Char) (h : (pyStrip l).head? = some c) :
    pyWS c = false := by
  unfold pyStrip at h
  rcases head?_rstrip (lstrip l) with h0 | h0
  · rw [h0] at h
    simp at h
  · rw [h0] at h
    exact dropWhile_head_not l c h

/-- The last character of a right-stripped string is not whitespace. -/
theorem rstrip_getLast_not (l : PyStr) (c : Char) (h : (rstrip l).getLast? = some c) :
    pyWS c = false := by
  unfold rstrip at h
  rw [List.getLast?_reverse] at h
  exact dropWhile_head_not l.reverse c h

/-- The last character of a stripped string is not whitespace. -/
theorem pyStrip_getLast_not (l : PyStr) (c : Char) (h : (pyStrip l).getLast? = some c) :
    pyWS c = false :=
  rstrip_getLast_not (lstrip l) c h

/-- A string whose first character is not whitespace is untouched by lstrip. -/
theorem lstrip_eq_self_of_head (l : PyStr)
    (h : ∀ c, l.head? = some c → pyWS c = false) : lstrip l = l := by
  cases l with
  | nil => rfl
  | cons a r =>
    have ha := h a rfl
    simp [lstrip, List.dropWhile_cons, ha]

/-- A string whose last character is not whitespace is untouched by rstrip. -/
theorem rstrip_eq_self_of_last (l : PyStr)
    (h : ∀ c, l.getLast? = some c → pyWS c = false) : rstrip l = l := by
  have h' : ∀ c, l.reverse.head? = some c → pyWS c = false := by
    intro c hc
    apply h
    rw [List.head?_reverse] at hc
    exact hc
  unfold rstrip
  rw [show l.reverse.dropWhile pyWS = l.reverse from lstrip_eq_self_of_head l.reverse h']
  exact l.reverse_reverse

/-- A string with non-whitespace edges is untouched by strip. -/
theorem pyStrip_eq_self_of_edges (l : PyStr)
    (h1 : ∀ c, l.head? = some c → pyWS c = false)
    (h2 : ∀ c, l.getLast? = some c → pyWS c = false) : pyStrip l = l := by
  unfold pyStrip
  rw [lstrip_eq_self_of_head l h1, rstrip_eq_self_of_last l h2]

/-- Space/tab characters are Python whitespace. -/
theorem hspace_pyWS {c : Char} (h : hspace c = true) : pyWS c = true := by
  simp [pyWS, h]

/-- A newline may precede any non-whitespace character. -/
theorem adjW_nl_right {c : Char} (h : pyWS c = false) : adjW '\n' c :=
  ⟨fun hc => absurd hc.1 (by decide),
   fun _ hw => absurd hw (by simp [h]),
   fun _ _ => rfl⟩

/-- A newline may follow any non-whitespace character. -/
theorem adjW_left_nl {c : Char} (h : pyWS c = false) : adjW c '\n' :=
  ⟨fun hc => absurd (hspace_pyWS hc.1) (by simp [h]),
   fun _ _ => rfl,
   fun _ hw => absurd hw (by simp [h])⟩

/-- Two newlines are not a space/tab pair. -/
theorem noHspPair_nl_nl : noHspPair '\n' '\n' := fun h => absurd h.1 (by decide)

/-- A chain restricts to any contiguous segment. -/
theorem chain_of_within {R : Char → Char → Prop} {l m : PyStr}
    (h : List.Chain' R m) (hw : l <:+: m) : List.Chain' R l := by
  rcases hw with ⟨s, t, rfl⟩
  exact (List.chain'_append.1 (List.chain'_append.1 h).1).2.1

/-- The strip of a string is a contiguous segment of it. -/
theorem pyStrip_within (l : PyStr) : pyStrip l <:+: l := by
  refine ⟨l.takeWhile pyWS, ((lstrip l).reverse.takeWhile pyWS).reverse, ?_⟩
  have h1 : pyStrip l ++ ((lstrip l).reverse.takeWhile pyWS).reverse = lstrip l :=
    (rstrip_decomp (lstrip l)).symm
  rw [List.append_assoc, h1]
  show List.takeWhile pyWS l ++ List.dropWhile pyWS l = l
  exact List.takeWhile_append_dropWhile pyWS l

/-- Chains survive stripping. -/
theorem chain_pyStrip {R : Char → Char → Prop} {l : PyStr}
    (h : List.Chain' R l) : List.Chain' R (pyStrip l) :=
  chain_of_within h (pyStrip_within l)

/-- Stripping keeps only characters of the input. -/
theorem mem_of_mem_pyStrip {c : Char} {l : PyStr} (h : c ∈ pyStrip l) : c ∈ l := by
  rcases pyStrip_within l with ⟨s, t, hst⟩
  rw [← hst]
  simp [h]

/-- Pairs of non-newline characters need only the space/tab discipline. -/
theorem chain_adjW_of_noNL : ∀ (l : PyStr), (∀ c ∈ l, c ≠ '\n') →
    List.Chain' noHspPair l → List.Chain' adjW l
  | [], _, _ => List.chain'_nil
  | a :: r, hnl, hch => by
    rcases List.chain'_cons'.1 hch with ⟨hpair, hrest⟩
    refine List.chain'_cons'.2
      ⟨?_, chain_adjW_of_noNL r (fun c hc => hnl c (List.mem_cons_of_mem _ hc)) hrest⟩
    intro y hy
    refine ⟨hpair y hy, ?_, ?_⟩
    · intro ha
      exact absurd ha (hnl a (List.mem_cons_self _ _))
    · intro hb
      have hyr : y ∈ r := List.mem_of_mem_head? hy
      exact absurd hb (hnl y (List.mem_cons_of_mem _ hyr))

/-- Characters of a newline-join come from the lines or are newlines. -/
theorem mem_joinNL : ∀ (ls : List PyStr) (c : Char), c ∈ joinNL ls →
    (∃ l ∈ ls, c ∈ l) ∨ c = '\n'
  | [], c, h => by simp [joinNL] at h
  | [l], c, h => by
    rw [show joinNL [l] = l from rfl] at h
    exact Or.inl ⟨l, by simp, h⟩
  | l :: m :: ls, c, h => by
    rw [show joinNL (l :: m :: ls) = l ++ '\n' :: joinNL (m :: ls) from rfl] at h
    rcases List.mem_append.1 h with h' | h'
    · exact Or.inl ⟨l, by simp, h'⟩
    · rcases List.mem_cons.1 h' with h'' | h''
      · exact Or.inr h''
      · rcases mem_joinNL (m :: ls) c h'' with ⟨l', hl', hc⟩ | h3
        · exact Or.inl ⟨l', List.mem_cons_of_mem _ hl', hc⟩
        · exact Or.inr h3

/-- Joining lines whose edges are not whitespace and whose interiors obey
the adjacency discipline yields a string obeying the discipline. -/
theorem joinNL_chain : ∀ (ls : List PyStr),
    (∀ l ∈ ls, List.Chain' adjW l) →
    (∀ l ∈ ls, ∀ c, l.head? = some c → pyWS c = false) →
    (∀ l ∈ ls, ∀ c, l.getLast? = some c → pyWS c = false) →
    List.Chain' adjW (joinNL ls)
  | [], _, _, _ => by simp [joinNL]
  | [l], hch, _, _ => by
    rw [show joinNL [l] = l from rfl]
    exact hch l (by simp)
  | l :: m :: ls, hch, hhd, hlast => by
    rw [show joinNL (l :: m :: ls) = l ++ '\n' :: joinNL (m :: ls) from rfl]
    refine List.chain'_append.2 ⟨hch l (by simp), ?_, ?_⟩
    · refine List.chain'_cons'.2 ⟨?_,
        joinNL_chain (m :: ls) (fun x hx => hch x (List.mem_cons_of_mem _ hx))
          (fun x hx => hhd x (List.mem_cons_of_mem _ hx))
          (fun x hx => hlast x (List.mem_cons_of_mem _ hx))⟩
      intro y hy
      cases m with
      | nil =>
        cases ls with
        | nil =>
          rw [show joinNL [([] : PyStr)] = [] from rfl] at hy
          simp at hy
        | cons m' ls' =>
          rw [show joinNL ([] :: m' :: ls') = [] ++ '\n' :: joinNL (m' :: ls') from rfl] at hy
          rw [List.nil_append, List.head?_cons] at hy
          cases hy
          exact adjW_nl_nl
      | cons a r =>
        have hy' : y = a := by
          cases ls with
          | nil =>
            rw [show joinNL [a :: r] = a :: r from rfl] at hy
            cases hy
            rfl
          | cons m' ls' =>
            rw [show joinNL ((a :: r) :: m' :: ls')
                  = (a :: r) ++ '\n' :: joinNL (m' :: ls') from rfl] at hy
            rw [List.cons_append, List.head?_cons] at hy
            cases hy
            rfl
        have h2 : pyWS a = false := hhd (a :: r) (by simp) a rfl
        rw [hy']
        exact adjW_nl_right h2
    · intro x hx y hy
      rw [List.head?_cons] at hy
      cases hy
      exact adjW_left_nl (hlast l (by simp) x hx)

/-- Splitting at newlines, stripping each line, and re-joining reconstructs
any string whose break characters are all newlines, whose whitespace obeys
the adjacency discipline, and whose edges are not whitespace (the first
character may also be a newline). -/
theorem splitJoin : ∀ (n : Nat) (t : PyStr), t.length ≤ n → t ≠ [] →
    (∀ c ∈ t, isLineBreak c = true → c = '\n') →
    List.Chain' adjW t →
    (∀ c, t.head? = some c → (pyWS c = false ∨ c = '\n')) →
    (∀ c, t.getLast? = some c → pyWS c = false) →
    joinNL ((pySplitlines t).map pyStrip) = t
  | 0, t, hn, hne, _, _, _, _ => by
    cases t with
    | nil => exact absurd rfl hne
    | cons a r => simp at hn
  | n + 1, t, hn, hne, hbreaks, hch, hhead, hlast => by
    have hAnl : ∀ c ∈ t.takeWhile (fun c => c != '\n'), c ≠ '\n' := by
      intro c hc
      have hp := List.mem_takeWhile_imp hc
      simpa using hp
    have hAsub : ∀ c ∈ t.takeWhile (fun c => c != '\n'), c ∈ t := by
      intro c hc
      have h2 : c ∈ t.takeWhile (fun c => c != '\n') ++ t.dropWhile (fun c => c != '\n') :=
        List.mem_append_left _ hc
      rwa [List.takeWhile_append_dropWhile] at h2
    have hAbf : ∀ c ∈ t.takeWhile (fun c => c != '\n'), isLineBreak c = false := by
      intro c hc
      cases hlb : isLineBreak c with
      | false => rfl
      | true => exact absurd (hbreaks c (hAsub c hc) hlb) (hAnl c hc)
    cases hB : t.dropWhile (fun c => c != '\n') with
    | nil =>
      have hAt : t.takeWhile (fun c => c != '\n') = t := by
        have h3 := List.takeWhile_append_dropWhile (fun c => c != '\n') t
        rw [hB, List.append_nil] at h3
        exact h3
      have htbf : ∀ c ∈ t, isLineBreak c = false := by
        intro c hc
        rw [← hAt] at hc
        exact hAbf c hc
      rw [pySplitlines_eq t hne, psAux_no_break t [] htbf]
      simp only [List.reverse_nil, List.nil_append, List.map_cons, List.map_nil]
      rw [show joinNL [pyStrip t] = pyStrip t from rfl]
      refine pyStrip_eq_self_of_edges t ?_ hlast
      intro c hc
      rcases hhead c hc with h1 | h1
      · exact h1
      · exfalso
        have hmem : c ∈ t := List.mem_of_mem_head? hc
        have h2 := htbf c hmem
        rw [h1] at h2
        exact absurd h2 (by decide)
    | cons b R =>
      have hbnl : b = '\n' := by
        have hhd := dropWhile_head_not (p := fun c => c != '\n') t b (by rw [hB]; rfl)
        simpa using hhd
      subst hbnl
      cases R with
      | nil =>
        exfalso
        have ht : t.takeWhile (fun c => c != '\n') ++ ['\n'] = t := by
          rw [← hB]
          exact List.takeWhile_append_dropWhile _ t
        have hgl : t.getLast? = some '\n' := by
          rw [← ht]
          simp
        have h2 := hlast '\n' hgl
        exact absurd h2 (by decide)
      | cons r0 rs =>
        have ht : t.takeWhile (fun c => c != '\n') ++ '\n' :: r0 :: rs = t := by
          rw [← hB]
          exact List.takeWhile_append_dropWhile _ t
        have hmemR : ∀ c ∈ (r0 :: rs : PyStr), c ∈ t := by
          intro c hc
          rw [← ht]
          exact List.mem_append_right _ (List.mem_cons_of_mem _ hc)
        have hbreaksR : ∀ c ∈ (r0 :: rs : PyStr), isLineBreak c = true → c = '\n' :=
          fun c hc => hbreaks c (hmemR c hc)
        have hcrR : ∀ c ∈ (r0 :: rs : PyStr), c ≠ '\r' := by
          intro c hc hceq
          subst hceq
          have h2 := hbreaksR '\r' hc (by decide)
          exact absurd h2 (by decide)
        have hchT : List.Chain' adjW (t.takeWhile (fun c => c != '\n') ++ '\n' :: r0 :: rs) := by
          rw [ht]
          exact hch
    
        have hchNR : List.Chain' adjW ('\n' :: r0 :: rs) := (List.chain'_append.1 hchT).2.1
        have hchR : List.Chain' adjW (r0 :: rs) := (List.chain'_cons'.1 hchNR).2
        have hpairNR := (List.chain'_cons'.1 hchNR).1
        have hheadR : ∀ c, (r0 :: rs : PyStr).head? = some c → (pyWS c = false ∨ c = '\n') := by
          intro c hc
          have hadj : adjW '\n' c := hpairNR c hc
          by_cases hw : pyWS c = true
          · exact Or.inr (hadj.2.1 rfl hw)
          · exact Or.inl (by simpa using hw)
        have hlastR : ∀ c, (r0 :: rs : PyStr).getLast? = some c → pyWS c = false := by
          intro c hc
          apply hlast
          rw [← ht]
          rw [show t.takeWhile (fun c => c != '\n') ++ '\n' :: r0 :: rs
                = (t.takeWhile (fun c => c != '\n') ++ ['\n']) ++ r0 :: rs by simp]
          rw [List.getLast?_append_of_ne_nil _ (by simp)]
          exact hc
        have hlenR : (r0 :: rs : PyStr).length ≤ n := by
          have h2 : ((t.takeWhile (fun c => c != '\n')) ++ '\n' :: r0 :: rs).length ≤ n + 1 := by
            rw [ht]
            exact hn
          rw [List.length_append] at h2
          simp only [List.length_cons] at h2 ⊢
          omega
        have hstripA : pyStrip (t.takeWhile (fun c => c != '\n'))
            = t.takeWhile (fun c => c != '\n') := by
          refine pyStrip_eq_self_of_edges _ ?_ ?_
          · intro c hc
            have hct : t.head? = some c := by
              rw [← ht]
              cases hAc : t.takeWhile (fun c => c != '\n') with
              | nil =>
                rw [hAc] at hc
                simp at hc
              | cons a as =>
                rw [hAc] at hc
                rw [List.cons_append]
                simpa using hc
            rcases hhead c hct with h1 | h1
            · exact h1
            · exfalso
              have hmem : c ∈ t.takeWhile (fun c => c != '\n') := List.mem_of_mem_head? hc
              exact absurd h1 (hAnl c hmem)
          · intro c hc
            have hbnd := (List.chain'_append.1 hchT).2.2
            have hadj : adjW c '\n' := hbnd c hc '\n' rfl
            by_cases hw : pyWS c = true
            · have h2 : c = '\n' := hadj.2.2 rfl hw
              exact absurd h2 (hAnl c (List.mem_of_mem_getLast? hc))
            · simpa using hw
        have hIH := splitJoin n (r0 :: rs) hlenR (by simp) hbreaksR hchR hheadR hlastR
        have h1 := psAux_append_nl (t.takeWhile (fun c => c != '\n')) [] (r0 :: rs) hAbf (by simp)
        rw [ht] at h1
        simp only [List.reverse_nil, List.nil_append] at h1
        rw [pySplitlines_eq t hne, h1, List.map_cons]
        cases hP : psAux [] (r0 :: rs) with
        | nil => exact absurd hP (psAux_ne_nil (r0 :: rs) [] hcrR)
        | cons p0 P' =>
          rw [List.map_cons]
          rw [show joinNL (pyStrip (t.takeWhile (fun c => c != '\n'))
                :: pyStrip p0 :: P'.map pyStrip)
              = pyStrip (t.takeWhile (fun c => c != '\n'))
                ++ '\n' :: joinNL (pyStrip p0 :: P'.map pyStrip) from rfl]
          rw [hstripA]
          have hIH' : joinNL (pyStrip p0 :: P'.map pyStrip) = r0 :: rs := by
            rw [← List.map_cons, ← hP, ← pySplitlines_eq _ (by simp)]
            exact hIH
          rw [hIH']
          exact ht

/-- The whitespace invariant normalize_whitespace establishes on its
output: no carriage returns or non-breaking spaces, every break character
is a newline, the whitespace adjacency discipline holds, and the edges are
not whitespace. -/
def nwInv (y : PyStr) : Prop :=
  (∀ c ∈ y, c ≠ '\r' ∧ c ≠ '\u00a0') ∧
  (∀ c ∈ y, isLineBreak c = true → c = '\n') ∧
  List.Chain' adjW y ∧
  (∀ c, y.head? = some c → pyWS c = false) ∧
  (∀ c, y.getLast? = some c → pyWS c = false)

/-- The split-strip-join-strip tail of normalize_whitespace establishes the
whitespace invariant whenever its input is free of carriage returns and
non-breaking spaces. -/
theorem nw_pipeline_inv (t2 : PyStr) (h2and : ∀ c ∈ t2, c ≠ '\r' ∧ c ≠ '\u00a0') :
    nwInv (pyStrip (joinNL
      ((pySplitlines (collapseNewlines (collapseSpaces t2))).map pyStrip))) := by
  have h4chars : ∀ c ∈ collapseNewlines (collapseSpaces t2), c ≠ '\r' ∧ c ≠ '\u00a0' := by
    intro c hc
    simp only [collapseNewlines, collapseSpaces] at hc
    rcases cnAux_chars (csAux false t2) 0 c hc with hc' | hc'
    · rcases csAux_chars t2 false c hc' with hc'' | hc''
      · exact h2and c hc''
      · subst hc''
        exact ⟨by decide, by decide⟩
    · subst hc'
      exact ⟨by decide, by decide⟩
  have h4cr : ∀ c ∈ collapseNewlines (collapseSpaces t2), c ≠ '\r' :=
    fun c hc => (h4chars c hc).1
  have hlinebf : ∀ l ∈ pySplitlines (collapseNewlines (collapseSpaces t2)),
      ∀ c ∈ l, isLineBreak c = false :=
    pySplitlines_chars _ h4cr
  have hstripbf : ∀ l ∈ (pySplitlines (collapseNewlines (collapseSpaces t2))).map pyStrip,
      ∀ c ∈ l, isLineBreak c = false := by
    intro l hl c hc
    rcases List.mem_map.1 hl with ⟨raw, hraw, hstrip⟩
    refine hlinebf raw hraw c (mem_of_mem_pyStrip ?_)
    rw [hstrip]
    exact hc
  have h5chars : ∀ c ∈ joinNL
      ((pySplitlines (collapseNewlines (collapseSpaces t2))).map pyStrip),
      c ≠ '\r' ∧ c ≠ '\u00a0' := by
    intro c hc
    rcases mem_joinNL _ c hc with ⟨l, hl, hcl⟩ | hcnl
    · rcases List.mem_map.1 hl with ⟨raw, hraw, hstrip⟩
      have hc' : c ∈ raw := mem_of_mem_pyStrip (by rw [hstrip]; exact hcl)
      rcases pySplitlines_within _ h4cr raw hraw with ⟨s, u, hsu⟩
      refine h4chars c ?_
      rw [← hsu]
      simp [hc']
    · subst hcnl
      exact ⟨by decide, by decide⟩
  have h5breaks : ∀ c ∈ joinNL
      ((pySplitlines (collapseNewlines (collapseSpaces t2))).map pyStrip),
      isLineBreak c = true → c = '\n' := by
    intro c hc hbr
    rcases mem_joinNL _ c hc with ⟨l, hl, hcl⟩ | hcnl
    · have h2 := hstripbf l hl c hcl
      rw [h2] at hbr
      exact absurd hbr (by decide)
    · exact hcnl
  have hch4 : List.Chain' noHspPair (collapseNewlines (collapseSpaces t2)) := by
    simp only [collapseNewlines, collapseSpaces]
    exact cnAux_chain noHspPair_nl_nl (csAux false t2) 0 (csAux_chain t2 false)
  have hch5 : List.Chain' adjW (joinNL
      ((pySplitlines (collapseNewlines (collapseSpaces t2))).map pyStrip)) := by
    refine joinNL_chain _ ?_ ?_ ?_
    · intro l hl
      rcases List.mem_map.1 hl with ⟨raw, hraw, hstrip⟩
      have hchraw : List.Chain' noHspPair raw :=
        chain_of_within hch4 (pySplitlines_within _ h4cr raw hraw)
      have hchl : List.Chain' noHspPair l := by
        rw [← hstrip]
        exact chain_pyStrip hchraw
      refine chain_adjW_of_noNL l ?_ hchl
      intro c hc hceq
      have h2 := hstripbf l hl c hc
      rw [hceq] at h2
      exact absurd h2 (by decide)
    · intro l hl c hc
      rcases List.mem_map.1 hl with ⟨raw, hraw, hstrip⟩
      refine pyStrip_head_not raw c ?_
      rw [hstrip]
      exact hc
    · intro l hl c hc
      rcases List.mem_map.1 hl with ⟨raw, hraw, hstrip⟩
      refine pyStrip_getLast_not raw c ?_
      rw [hstrip]
      exact hc
  refine ⟨?_, ?_, chain_pyStrip hch5, ?_, ?_⟩
  · intro c hc
    exact h5chars c (mem_of_mem_pyStrip hc)
  · intro c hc
    exact h5breaks c (mem_of_mem_pyStrip hc)
  · intro c hc
    exact pyStrip_head_not _ c hc
  · intro c hc
    exact pyStrip_getLast_not _ c hc

/-- normalize_whitespace always establishes the whitespace invariant. -/
theorem nw_inv (x : PyStr) : nwInv (normalize_whitespace x) := by
  by_cases hx : x = []
  · subst hx
    have h0 : normalize_whitespace ([] : PyStr) = [] := rfl
    rw [h0]
    exact ⟨fun c hc => absurd hc (List.not_mem_nil c),
      fun c hc => absurd hc (List.not_mem_nil c),
      List.chain'_nil, fun c hc => by simp at hc, fun c hc => by simp at hc⟩
  · have heq : normalize_whitespace x = pyStrip (joinNL ((pySplitlines (collapseNewlines
        (collapseSpaces ((x.map fun c => if c = '\u00a0' then ' ' else c).filter
          fun c => c != '\r')))).map pyStrip)) := by
      simp only [normalize_whitespace]
      rw [if_neg hx]
    rw [heq]
    refine nw_pipeline_inv _ ?_
    intro c hc
    rcases List.mem_filter.1 hc with ⟨hmem, hfil⟩
    refine ⟨by simpa using hfil, ?_⟩
    rcases List.mem_map.1 hmem with ⟨a, _, hfa⟩
    by_cases hanb : a = '\u00a0'
    · rw [← hfa, if_pos hanb]
      decide
    · rw [← hfa, if_neg hanb]
      exact hanb

/-- On strings satisfying the whitespace invariant, normalize_whitespace
acts exactly as the newline-collapsing step alone. -/
theorem nw_eq_cnl (y : PyStr) (h : nwInv y) :
    normalize_whitespace y = collapseNewlines y := by
  obtain ⟨hchar, hbreaks, hchain, hhead, hlast⟩ := h
  by_cases hy : y = []
  · subst hy
    rfl
  · have heq : normalize_whitespace y = pyStrip (joinNL ((pySplitlines (collapseNewlines
        (collapseSpaces ((y.map fun c => if c = '\u00a0' then ' ' else c).filter
          fun c => c != '\r')))).map pyStrip)) := by
      simp only [normalize_whitespace]
      rw [if_neg hy]
    have hmap : (y.map fun c => if c = '\u00a0' then ' ' else c) = y := by
      have h2 : ∀ c ∈ y, (if c = '\u00a0' then ' ' else c) = c := by
        intro c hc
        rw [if_neg (hchar c hc).2]
      calc y.map (fun c => if c = '\u00a0' then ' ' else c) = y.map id :=
            List.map_congr_left h2
        _ = y := List.map_id y
    have hfil : (y.filter fun c => c != '\r') = y := by
      rw [List.filter_eq_self]
      intro c hc
      simpa using (hchar c hc).1
    have hcs : collapseSpaces y = y := by
      show csAux false y = y
      refine csAux_eq_self y false ?_ ?_
      · exact hchain.imp fun a b hab => hab.1
      · intro h2
        cases h2
    have hne4 : collapseNewlines y ≠ [] := by
      cases y with
      | nil => exact absurd rfl hy
      | cons a r =>
        intro hcontra
        have h2 : (collapseNewlines (a :: r)).head? = (a :: r).head? :=
          cnAux_head_lt (a :: r) 0 (by omega)
        rw [hcontra] at h2
        simp at h2
    have hbreaks4 : ∀ c ∈ collapseNewlines y, isLineBreak c = true → c = '\n' := by
      intro c hc hbr
      rcases cnAux_chars y 0 c hc with hc' | hc'
      · exact hbreaks c hc' hbr
      · exact hc'
    have hchain4 : List.Chain' adjW (collapseNewlines y) := cnAux_chain adjW_nl_nl y 0 hchain
    have hhead4s : ∀ c, (collapseNewlines y).head? = some c → pyWS c = false := by
      intro c hc
      rw [show (collapseNewlines y).head? = y.head? from cnAux_head_lt y 0 (by omega)] at hc
      exact hhead c hc
    have hhead4 : ∀ c, (collapseNewlines y).head? = some c →
        (pyWS c = false ∨ c = '\n') :=
      fun c hc => Or.inl (hhead4s c hc)
    have hlast4 : ∀ c, (collapseNewlines y).getLast? = some c → pyWS c = false := by
      intro c hc
      cases hgl : y.getLast? with
      | none =>
        rw [List.getLast?_eq_none_iff] at hgl
        exact absurd hgl hy
      | some d =>
        have hd := hlast d hgl
        have hdn : d ≠ '\n' := by
          intro hdd
          rw [hdd] at hd
          exact absurd hd (by decide)
        have h2 : (collapseNewlines y).getLast? = some d := cnAux_getLast y 0 d hgl hdn
        rw [h2] at hc
        cases hc
        exact hd
    have hJ := splitJoin (collapseNewlines y).length (collapseNewlines y) le_rfl hne4
      hbreaks4 hchain4 hhead4 hlast4
    have hstrip4 : pyStrip (collapseNewlines y) = collapseNewlines y :=
      pyStrip_eq_self_of_edges _ hhead4s hlast4
    rw [heq, hmap, hfil, hcs, hJ, hstrip4]

/-- The newline-collapsing step preserves the whitespace invariant. -/
theorem cnl_inv (y : PyStr) (h : nwInv y) : nwInv (collapseNewlines y) := by
  obtain ⟨hchar, hbreaks, hchain, hhead, hlast⟩ := h
  refine ⟨?_, ?_, cnAux_chain adjW_nl_nl y 0 hchain, ?_, ?_⟩
  · intro c hc
    rcases cnAux_chars y 0 c hc with hc' | hc'
    · exact hchar c hc'
    · subst hc'
      exact ⟨by decide, by decide⟩
  · intro c hc hbr
    rcases cnAux_chars y 0 c hc with hc' | hc'
    · exact hbreaks c hc' hbr
    · exact hc'
  · intro c hc
    rw [show (collapseNewlines y).head? = y.head? from cnAux_head_lt y 0 (by omega)] at hc
    exact hhead c hc
  · intro c hc
    cases hgl : y.getLast? with
    | none =>
      rw [List.getLast?_eq_none_iff] at hgl
      subst hgl
      simp [collapseNewlines, cnAux] at hc
    | some d =>
      have hd := hlast d hgl
      have hdn : d ≠ '\n' := by
        intro hdd
        rw [hdd] at hd
        exact absurd hd (by decide)
      have h2 : (collapseNewlines y).getLast? = some d := cnAux_getLast y 0 d hgl hdn
      rw [h2] at hc
      cases hc
      exact hd

/-- C3 (amended): normalize_whitespace is not idempotent, but composing it
with itself is: a third application never changes the result of two
applications, for every input string. -/
theorem c3_normalize_idempotent_after_two (x : PyStr) :
    normalize_whitespace (normalize_whitespace (normalize_whitespace x)) =
      normalize_whitespace (normalize_whitespace x) := by
  have hInv := nw_inv x
  have h1 := nw_eq_cnl (normalize_whitespace x) hInv
  have hInv2 := cnl_inv (normalize_whitespace x) hInv
  have h2 := nw_eq_cnl (collapseNewlines (normalize_whitespace x)) hInv2
  rw [h1, h2]
  exact cnAux_idem (normalize_whitespace x) 0 (by omega)

/-- C3 counterexample: normalize_whitespace is not idempotent.  On
"a\n\n \n\nb" the whitespace-only middle line is stripped to empty, the
rejoin creates a run of four newlines, and a second application collapses
that run, changing the result. -/
theorem c3_counterexample :
    normalize_whitespace (normalize_whitespace ("a\n\n \n\nb".toList)) ≠
      normalize_whitespace ("a\n\n \n\nb".toList) := by
  decide

/-- The subscript-checked inner while loop never hits an IndexError: given
enough fuel it returns the run and stop index that the functional merge
loop computes on the unread suffix of the lines. -/
theorem jblInnerIdx_eq : ∀ (f : Nat) (lines : List PyStr) (run : PyStr) (j : Nat),
    lines.length ≤ j + f → j ≤ lines.length →
    jblInnerIdx f lines run j
      = some ((jblMergeRun run (lines.drop j)).1,
          lines.length - ((jblMergeRun run (lines.drop j)).2).length)
  | 0, lines, run, j, hf, hj => by
    have hjeq : j = lines.length := by omega
    subst hjeq
    rw [show jblInnerIdx 0 lines run lines.length = some (run, lines.length) from by
      simp [jblInnerIdx]]
    rw [List.drop_length]
    rw [show jblMergeRun run [] = (run, []) from rfl]
    simp
  | f + 1, lines, run, j, hf, hj => by
    by_cases hjlt : j < lines.length
    · have hdrop : lines.drop j = lines[j] :: lines.drop (j + 1) :=
        List.drop_eq_getElem_cons hjlt
      have hget : lines.get? j = some lines[j] := by
        rw [List.get?_eq_getElem?]
        exact List.getElem?_eq_getElem hjlt
      by_cases b1 : lstrip lines[j] = []
      · rw [show jblInnerIdx (f + 1) lines run j = some (run, j) from by
          simp [jblInnerIdx, hjlt, hget, b1]]
        rw [hdrop]
        rw [show jblMergeRun run (lines[j] :: lines.drop (j + 1))
            = (run, lines[j] :: lines.drop (j + 1)) from by simp [jblMergeRun, b1]]
        simp [List.length_drop]
        omega
      · by_cases b2 : run.getLast? = some '-'
        · rw [show jblInnerIdx (f + 1) lines run j
              = jblInnerIdx f lines (run.dropLast ++ lstrip lines[j]) (j + 1) from by
            simp [jblInnerIdx, hjlt, hget, b1, b2]]
          rw [jblInnerIdx_eq f lines (run.dropLast ++ lstrip lines[j]) (j + 1)
            (by omega) (by omega)]
          rw [hdrop]
          rw [show jblMergeRun run (lines[j] :: lines.drop (j + 1))
              = jblMergeRun (run.dropLast ++ lstrip lines[j]) (lines.drop (j + 1)) from by
            simp [jblMergeRun, b1, b2]]
        · by_cases b3 : punctEnd run = true
          · rw [show jblInnerIdx (f + 1) lines run j = some (run, j) from by
              simp [jblInnerIdx, hjlt, hget, b1, b2, b3]]
            rw [hdrop]
            rw [show jblMergeRun run (lines[j] :: lines.drop (j + 1))
                = (run, lines[j] :: lines.drop (j + 1)) from by
              simp [jblMergeRun, b1, b2, b3]]
            simp [List.length_drop]
            omega
          · by_cases b4 : startsLowerDigit (lstrip lines[j]) = true
            · rw [show jblInnerIdx (f + 1) lines run j
                  = jblInnerIdx f lines (run ++ ' ' :: lstrip lines[j]) (j + 1) from by
                simp [jblInnerIdx, hjlt, hget, b1, b2, b3, b4]]
              rw [jblInnerIdx_eq f lines (run ++ ' ' :: lstrip lines[j]) (j + 1)
                (by omega) (by omega)]
              rw [hdrop]
              rw [show jblMergeRun run (lines[j] :: lines.drop (j + 1))
                  = jblMergeRun (run ++ ' ' :: lstrip lines[j]) (lines.drop (j + 1)) from by
                simp [jblMergeRun, b1, b2, b3, b4]]
            · by_cases b5 : (run.length < 40 && startsLower (lstrip lines[j])) = true
              · rw [show jblInnerIdx (f + 1) lines run j
                    = jblInnerIdx f lines (run ++ ' ' :: lstrip lines[j]) (j + 1) from by
                  simp [jblInnerIdx, hjlt, hget, b1, b2, b3, b4, b5]]
                rw [jblInnerIdx_eq f lines (run ++ ' ' :: lstrip lines[j]) (j + 1)
                  (by omega) (by omega)]
                rw [hdrop]
                rw [show jblMergeRun run (lines[j] :: lines.drop (j + 1))
                    = jblMergeRun (run ++ ' ' :: lstrip lines[j]) (lines.drop (j + 1)) from by
                  simp [jblMergeRun, b1, b2, b3, b4, b5]]
              · rw [show jblInnerIdx (f + 1) lines run j = some (run, j) from by
                  simp [jblInnerIdx, hjlt, hget, b1, b2, b3, b4, b5]]
                rw [hdrop]
                rw [show jblMergeRun run (lines[j] :: lines.drop (j + 1))
                    = (run, lines[j] :: lines.drop (j + 1)) from by
                  simp [jblMergeRun, b1, b2, b3, b4, b5]]
                simp [List.length_drop]
                omega
    · have hjeq : j = lines.length := by omega
      subst hjeq
      rw [show jblInnerIdx (f + 1) lines run lines.length = some (run, lines.length) from by
        simp [jblInnerIdx]]
      rw [List.drop_length]
      rw [show jblMergeRun run [] = (run, []) from rfl]
      simp

/-- The subscript-checked outer while loop never hits an IndexError: given
enough fuel it returns exactly the run list the functional loop computes on
the unread suffix of the lines. -/
theorem jblOuterIdx_eq : ∀ (f : Nat) (lines : List PyStr) (i : Nat),
    lines.length ≤ i + f → i ≤ lines.length →
    jblOuterIdx f lines i = some (jblRunsAux f (lines.drop i))
  | 0, lines, i, hf, hi => by
    have hieq : i = lines.length := by omega
    subst hieq
    rw [show jblOuterIdx 0 lines lines.length = some [] from by simp [jblOuterIdx]]
    rw [List.drop_length]
    rw [show jblRunsAux 0 [] = [] from rfl]
  | f + 1, lines, i, hf, hi => by
    by_cases hlt : i < lines.length
    · have hdrop : lines.drop i = lines[i] :: lines.drop (i + 1) :=
        List.drop_eq_getElem_cons hlt
      have hget : lines.get? i = some lines[i] := by
        rw [List.get?_eq_getElem?]
        exact List.getElem?_eq_getElem hlt
      by_cases hblank : rstrip lines[i] = []
      · rw [show jblOuterIdx (f + 1) lines i
            = (jblOuterIdx f lines (i + 1)).map (fun t => [] :: t) from by
          simp [jblOuterIdx, hlt, hget, hblank]]
        rw [jblOuterIdx_eq f lines (i + 1) (by omega) (by omega)]
        rw [hdrop]
        rw [show jblRunsAux (f + 1) (lines[i] :: lines.drop (i + 1))
            = [] :: jblRunsAux f (lines.drop (i + 1)) from by simp [jblRunsAux, hblank]]
        rfl
      · have hinner := jblInnerIdx_eq lines.length lines (rstrip lines[i]) (i + 1)
          (by omega) (by omega)
        have hsuf : (jblMergeRun (rstrip lines[i]) (lines.drop (i + 1))).2
            <:+ lines.drop (i + 1) := jblMergeRun_suffix (lines.drop (i + 1)) (rstrip lines[i])
        have hsuf2 : (jblMergeRun (rstrip lines[i]) (lines.drop (i + 1))).2 <:+ lines :=
          hsuf.trans (List.drop_suffix (i + 1) lines)
        have hlen2 : ((jblMergeRun (rstrip lines[i]) (lines.drop (i + 1))).2).length
            ≤ lines.length - (i + 1) := by
          have h3 := hsuf.length_le
          simpa [List.length_drop] using h3
        have hdropm : lines.drop
            (lines.length - ((jblMergeRun (rstrip lines[i]) (lines.drop (i + 1))).2).length)
            = (jblMergeRun (rstrip lines[i]) (lines.drop (i + 1))).2 :=
          (List.suffix_iff_eq_drop.1 hsuf2).symm
        rw [show jblOuterIdx (f + 1) lines i
            = (jblOuterIdx f lines
                (lines.length - ((jblMergeRun (rstrip lines[i]) (lines.drop (i + 1))).2).length)).map
              (fun t => pyStrip (jblMergeRun (rstrip lines[i]) (lines.drop (i + 1))).1 :: t) from by
          simp [jblOuterIdx, hlt, hget, hblank, hinner]]
        rw [jblOuterIdx_eq f lines
          (lines.length - ((jblMergeRun (rstrip lines[i]) (lines.drop (i + 1))).2).length)
          (by omega) (by omega)]
        rw [hdropm]
        rw [hdrop]
        rw [show jblRunsAux (f + 1) (lines[i] :: lines.drop (i + 1))
            = pyStrip (jblMergeRun (rstrip lines[i]) (lines.drop (i + 1))).1
              :: jblRunsAux f (jblMergeRun (rstrip lines[i]) (lines.drop (i + 1))).2 from by
          simp [jblRunsAux, hblank]]
        rfl
    · have hieq : i = lines.length := by omega
      subst hieq
      rw [show jblOuterIdx (f + 1) lines lines.length = some [] from by simp [jblOuterIdx]]
      rw [List.drop_length]
      rw [show jblRunsAux (f + 1) ([] : List PyStr) = [] from rfl]

/-- C8: join_broken_lines is total and raises no IndexError on any input
line list: the model in which every lines subscript of the two while loops
is a fallible lookup always succeeds, and returns exactly the reflowed text
of the direct functional model. -/
theorem c8_reflow_never_raises (lines : List PyStr) :
    join_broken_lines_checked lines = some (join_broken_lines lines) := by
  unfold join_broken_lines_checked join_broken_lines
  rw [jblOuterIdx_eq lines.length lines 0 (by omega) (by omega)]
  rw [List.drop_zero]
  rfl
